import Mathlib

/-!
# Odd-even transposition sort: a verification development

Shallow embedding of the phase operation (`sort_couples`, `Include/business_logic.cpp`),
the sequential engine (`odd-even-seq.cpp`), the chunk dispenser (`Include/TaskManager.cpp`),
the dynamic engine (`odd-even-par-dyn.cpp`), the static range assignment and phases
(`odd-even-par-static.cpp`), the spin barrier (`Include/ActiveBarrier.cpp`) and the
generators `fill_reversed` and `fill_for_fixed_iterations` (`Include/utils.cpp`).

Conventions of the embedding.

* A `vector<int>` is a `List Int`.  The elements are only compared and exchanged, never
  added, so their width plays no role.
* Indices and bounds are `int` in the source and `Int` here.  An access `A[i]` outside the
  vector is undefined behaviour in the source; here the operation fails with `none`.
* `for`/`while` loops are recursive functions on a fuel argument; running out of fuel is
  `none` as well, and the theorems show that the fuel given is always enough.
* The `atomic<int>` cursor of the dispenser wraps around modulo `2^32` (atomic arithmetic on
  signed integers is two's complement without undefined results).
-/

namespace OddEvenSort

/-! ## Machine integers -/

/-- Two's complement reduction of an integer to the range of a 32-bit `int`. -/
def wrap32 (x : Int) : Int := (x + 2 ^ 31) % 2 ^ 32 - 2 ^ 31

/-- Largest value of a 32-bit `int`. -/
def INT_MAX : Int := 2 ^ 31 - 1

/-! ## Vectors -/

/-- The read `A[i]` for an `int` index: `none` when `i` is outside `0 .. A.size()-1`. -/
def vec_get (A : List Int) (i : Int) : Option Int :=
  if i < 0 then none else A.get? i.toNat

/-- The call `std::is_sorted(A.begin(), A.end())`: no element is smaller than its predecessor. -/
def is_sorted : List Int → Bool
  | [] => true
  | [_] => true
  | a :: b :: rest => !(decide (b < a)) && is_sorted (b :: rest)

/-! ## Phase operation (`business_logic.cpp`) -/

/-- The loop `for(int i=start; i<end-1; i+=2)` of `sort_couples`, entered with loop variable `i`,
vector `A` and counter `swapped`.  Each round reads `A[i]` and `A[i+1]`, exchanges them when
`A[i] > A[i+1]` and counts the exchange. -/
def sort_couples_loop : Nat → List Int → Int → Int → Nat → Option (List Int × Nat)
  | 0, A, i, end_, swapped =>
    if i < end_ - 1 then none else some (A, swapped)
  | fuel + 1, A, i, end_, swapped =>
    if i < end_ - 1 then
      match vec_get A i, vec_get A (i + 1) with
      | some a, some b =>
        if a > b then
          sort_couples_loop fuel ((A.set i.toNat b).set (i + 1).toNat a) (i + 2) end_ (swapped + 1)
        else
          sort_couples_loop fuel A (i + 2) end_ swapped
      | _, _ => none
    else some (A, swapped)

/-- The function `sort_couples(A, start, end)`: the vector it leaves and the value it returns.
The loop runs at most `end - start` rounds, which is the fuel.  The loop variable never exceeds
`end` (`i < end-1` before `i += 2`) and the counter never exceeds the number of rounds, so no
`int` computation of the function overflows. -/
def sort_couples (A : List Int) (start end_ : Int) : Option (List Int × Nat) :=
  sort_couples_loop (end_ - start).toNat A start end_ 0

/-! ## Sequential engine (`odd-even-seq.cpp`) -/

/-- The loop `while(swapped)` of `main`: an even phase, an odd phase, `swapped` the bitwise or of
the two swap counts.  Returns the vector and the iteration counter `iter` at exit. -/
def seq_loop (even_end odd_end : Int) : Nat → List Int → Nat → Nat → Option (List Int × Nat)
  | 0, A, iter, swapped =>
    if swapped ≠ 0 then none else some (A, iter)
  | fuel + 1, A, iter, swapped =>
    if swapped ≠ 0 then
      match sort_couples A 0 even_end with
      | none => none
      | some (A1, nswaps_even) =>
        match sort_couples A1 1 odd_end with
        | none => none
        | some (A2, nswaps_odd) =>
          seq_loop even_end odd_end fuel A2 (iter + 1) (nswaps_even ||| nswaps_odd)
    else some (A, iter)

/-- Ending index of the even phase: `(N%2 == 0) ? N : N-1`. -/
def even_end (N : Int) : Int := if N % 2 = 0 then N else N - 1

/-- Ending index of the odd phase: `(N%2 == 0) ? N-1 : N`. -/
def odd_end (N : Int) : Int := if N % 2 = 0 then N - 1 else N

/-- The sorting part of `main` on a vector `A` of `N = A.size()` elements: `iter = 0`,
`swapped = 1`, then the loop. -/
def seq_sort (fuel : Nat) (A : List Int) : Option (List Int × Nat) :=
  seq_loop (even_end A.length) (odd_end A.length) fuel A 0 1

/-- The generator `fill_reversed` on a vector of `N` elements: `iota` from 0, then `reverse`. -/
def fill_reversed (N : Nat) : List Int :=
  ((List.range N).map (fun k => (k : Int))).reverse

/-! ## The postcondition of `sort_couples`, in the words of its description -/

/-- The couple `(i, i+1)` is one that `sort_couples(A, start, end)` visits: `i` is one of
`start, start+2, start+4, ...` and `i < end-1`. -/
def visits (start end_ : Int) (i : Nat) : Bool :=
  decide (start ≤ (i : Int) ∧ (i : Int) < end_ - 1 ∧ ((i : Int) - start) % 2 = 0)

/-- The couple `(i, i+1)` of `A` is out of order: `A[i] > A[i+1]`. -/
def out_of_order (A : List Int) (i : Nat) : Bool :=
  match A[i]?, A[i + 1]? with
  | some a, some b => decide (a > b)
  | _, _ => false

/-- The couple `(i, i+1)` is visited and out of order in the input `A`. -/
def exchanged (A : List Int) (start end_ : Int) (i : Nat) : Bool :=
  visits start end_ i && out_of_order A i

/-- Number of indices `i` in `start, start+2, ...` with `i < end-1` and `A[i] > A[i+1]`. -/
def swaps_spec (A : List Int) (start end_ : Int) : Nat :=
  (List.range A.length).countP (exchanged A start end_)

/-- Element at position `j` of the input `A` with exactly the visited, out-of-order couples
exchanged and every other position unchanged. -/
def elem_spec (A : List Int) (start end_ : Int) (j : Nat) : Option Int :=
  if exchanged A start end_ j then A[j + 1]?
  else if 1 ≤ j ∧ exchanged A start end_ (j - 1) then A[j - 1]?
  else A[j]?

/-! ## Chunk dispenser (`TaskManager.cpp`) -/

/-- The class `TaskManager`: the atomic cursor `current_index` and the fixed `chunksize` and
`size`.  The constructor `TaskManager(c, s)` sets `chunksize` and `size` only; the cursor gets
its first value from `set_index`. -/
structure TaskManager where
  current_index : Int
  chunksize : Int
  size : Int
deriving DecidableEq

/-- The method `set_index(v)`: `current_index = v`. -/
def TaskManager.set_index (tm : TaskManager) (v : Int) : TaskManager :=
  ⟨v, tm.chunksize, tm.size⟩

/-- The method `get_task(&s, &e)`: `*s = current_index.fetch_add(chunksize)`, with the atomic
addition wrapping around; `false` (here `none`) when `*s >= size`; otherwise
`*e = min(size, *s+chunksize)` and `true` (here the range `(*s, *e)`).  The sum `*s+chunksize`
is a plain `int` addition, taken here with the same wrap-around. -/
def TaskManager.get_task (tm : TaskManager) : TaskManager × Option (Int × Int) :=
  let s := tm.current_index
  let tm1 : TaskManager := ⟨wrap32 (s + tm.chunksize), tm.chunksize, tm.size⟩
  if s ≥ tm.size then (tm1, none)
  else (tm1, some (s, min tm.size (wrap32 (s + tm.chunksize))))

/-- The answers of `m` successive calls of `get_task`. -/
def TaskManager.claims : Nat → TaskManager → List (Option (Int × Int))
  | 0, _ => []
  | m + 1, tm => tm.get_task.2 :: TaskManager.claims m tm.get_task.1

/-- The answer the description of the dispenser gives for call number `k` (from 0) after
`set_index(v)`: the range `[v + k*c, min(S, v + (k+1)*c))` while `v + k*c < S`, exhausted
afterwards. -/
def claim_spec (c S v : Int) (k : Nat) : Option (Int × Int) :=
  if v + k * c < S then some (v + k * c, min S (v + (k + 1) * c)) else none

/-! ## Dynamic engine (`odd-even-par-dyn.cpp`), one worker -/

/-- The loop `while(tm.get_task(&start, &end)) nswaps += sort_couples(A, start, end);` of a
phase of `worker_fun`. -/
def dyn_phase : Nat → TaskManager → List Int → Nat → Option (TaskManager × List Int × Nat)
  | 0, _, _, _ => none
  | fuel + 1, tm, A, nswaps =>
    match tm.get_task with
    | (tm1, none) => some (tm1, A, nswaps)
    | (tm1, some (start, end_)) =>
      match sort_couples A start end_ with
      | none => none
      | some (A1, n) => dyn_phase fuel tm1 A1 (nswaps + n)

/-- The iterations of the engine with one worker, in the order the barriers impose: the worker
runs its even phase, the coordinator calls `set_index(1)`, the worker runs its odd phase and ors
its swap counts into `swapped`, the coordinator stops when `swapped` is zero and otherwise calls
`set_index(0)` and clears `swapped`.  Returns the vector and the counter `iter`. -/
def dyn_loop (phase_fuel : Nat) : Nat → TaskManager → List Int → Nat → Option (List Int × Nat)
  | 0, _, _, _ => none
  | fuel + 1, tm, A, iter =>
    match dyn_phase phase_fuel tm A 0 with
    | none => none
    | some (tm1, A1, nswaps_even) =>
      match dyn_phase phase_fuel (tm1.set_index 1) A1 0 with
      | none => none
      | some (tm2, A2, nswaps_odd) =>
        if (nswaps_even ||| nswaps_odd) = 0 then some (A2, iter + 1)
        else dyn_loop phase_fuel fuel (tm2.set_index 0) A2 (iter + 1)

/-- The sorting part of `main` with chunk size `chunksize` on the vector `A`:
`TaskManager tm(chunksize, N); tm.set_index(0);`, then the iterations. -/
def dyn_sort (phase_fuel fuel : Nat) (chunksize : Int) (A : List Int) : Option (List Int × Nat) :=
  dyn_loop phase_fuel fuel ((TaskManager.mk 0 chunksize A.length).set_index 0) A 0

/-! ## Static range assignment (`odd-even-par-static.cpp`) -/

/-- Number of couples of the even phase: `N/2`, the division of C, which truncates. -/
def couples_e (N : Int) : Int := Int.tdiv N 2

/-- Number of couples of the odd phase: `(N-1)/2`, the division of C, which truncates. -/
def couples_o (N : Int) : Int := Int.tdiv (N - 1) 2

/-- The offset `(t == 0) ? 0 : 2*( t*(C/nw) + min(C%nw, t) )` of worker `t`.  For `0 <= t < nw`
and `0 <= C <= N/2` it is at most `2*C <= N`, so the `int` arithmetic does not overflow. -/
def range_offset (C nw t : Int) : Int :=
  if t = 0 then 0 else 2 * (t * Int.tdiv C nw + min (Int.tmod C nw) t)

/-- `start_e` of worker `t`. -/
def start_e (N nw t : Int) : Int := range_offset (couples_e N) nw t

/-- `end_e` of worker `t`: `(t == nw-1) ? 2*E : start_e + 2*( (E/nw) + (t < E%nw) )`. -/
def end_e (N nw t : Int) : Int :=
  if t = nw - 1 then 2 * couples_e N
  else start_e N nw t +
    2 * (Int.tdiv (couples_e N) nw + (if t < Int.tmod (couples_e N) nw then 1 else 0))

/-- `start_o` of worker `t`: `1 + ((t == 0) ? 0 : 2*( t*(O/nw) + min(O%nw, t) ))`. -/
def start_o (N nw t : Int) : Int := 1 + range_offset (couples_o N) nw t

/-- `end_o` of worker `t`: `(t == nw-1) ? 1 + 2*O : start_o + 2*( (O/nw) + (t < O%nw) )`. -/
def end_o (N nw t : Int) : Int :=
  if t = nw - 1 then 1 + 2 * couples_o N
  else start_o N nw t +
    2 * (Int.tdiv (couples_o N) nw + (if t < Int.tmod (couples_o N) nw then 1 else 0))

/-- The share `floor(C/nw) + (1 if t < C mod nw else 0)` of worker `t` in `C` couples. -/
def balanced_share (C nw t : Int) : Int := C / nw + (if t < C % nw then 1 else 0)

/-! ## Spin barrier (`ActiveBarrier.cpp`) -/

/-- The class `ActiveBarrier`: the atomic counter `count` and `reset_value`. -/
structure ActiveBarrier where
  count : Int
  reset_value : Int
deriving DecidableEq

/-- The constructor `ActiveBarrier(v)`. -/
def ActiveBarrier.init (v : Int) : ActiveBarrier := ⟨v, v⟩

/-- The method `reset()`: `count = reset_value`. -/
def ActiveBarrier.reset (b : ActiveBarrier) : ActiveBarrier := ⟨b.reset_value, b.reset_value⟩

/-- An arrival: the atomic decrement `count--` with which `wait_all` and `wait_reset` begin. -/
def ActiveBarrier.arrive (b : ActiveBarrier) : ActiveBarrier :=
  ⟨wrap32 (b.count - 1), b.reset_value⟩

/-- The loop `while(count > 0) ;` of `wait_all` and `wait_all_nomod` is left. -/
def ActiveBarrier.released_all (b : ActiveBarrier) : Bool := !(decide (b.count > 0))

/-- The loop `while(count != reset_value) ;` of `wait_reset` is left. -/
def ActiveBarrier.released_reset (b : ActiveBarrier) : Bool := !(decide (b.count ≠ b.reset_value))

/-- The steps that change the counter. -/
inductive BarrierEvent where
  | arrival : BarrierEvent
  | reset : BarrierEvent
deriving DecidableEq

/-- The step relation on the counter: one arrival or one reset. -/
def ActiveBarrier.step (b : ActiveBarrier) : BarrierEvent → ActiveBarrier
  | BarrierEvent.arrival => b.arrive
  | BarrierEvent.reset => b.reset

/-- The barrier after a history of steps, the most recent step first. -/
def ActiveBarrier.after (b : ActiveBarrier) : List BarrierEvent → ActiveBarrier
  | [] => b
  | ev :: hist => (ActiveBarrier.after b hist).step ev

/-- The barrier after `k` arrivals. -/
def ActiveBarrier.arrivals : Nat → ActiveBarrier → ActiveBarrier
  | 0, b => b
  | k + 1, b => ActiveBarrier.arrivals k b.arrive

/-- Number of arrivals since the last reset in a history of steps, the most recent first. -/
def pending : List BarrierEvent → Nat
  | [] => 0
  | BarrierEvent.arrival :: hist => pending hist + 1
  | BarrierEvent.reset :: _ => 0

/-- The history respects the party count `P`: at no moment have more than `P` participants
arrived since the last reset. -/
def within_parties (P : Int) : List BarrierEvent → Prop
  | [] => True
  | ev :: hist => (pending (ev :: hist) : Int) ≤ P ∧ within_parties P hist

/-- The answers of the first `m` calls of `get_task` made after
`TaskManager tm(c, S); tm.set_index(v);`.  The constructor leaves the cursor without a value
and `set_index` overwrites it, so its first value plays no role; it is 0 here. -/
def claims_after (c S v : Int) (m : Nat) : List (Option (Int × Int)) :=
  ((TaskManager.mk 0 c S).set_index v).claims m

/-! ## Configuration of the dynamic engine (`odd-even-par-dyn.cpp`, `main`) -/

/-- The chunk size with which `main` builds `TaskManager tm(chunksize, N)`: the command line
argument, replaced by `N/nw` (the division of C) by `if(chunksize <= 0) chunksize = N/nw;`. -/
def dyn_chunksize (N nw chunksize : Int) : Int :=
  if chunksize ≤ 0 then Int.tdiv N nw else chunksize

/-! ## Iteration-bounded generator (`utils.cpp`) -/

/-- The call `iota(v.begin(), v.end(), 0)` on a vector of `N` elements. -/
def iota (N : Nat) : List Int := (List.range N).map (fun k => (k : Int))

/-- The loop `for(int i=0; i<(int)v.size(); i++)` of `fill_for_fixed_iterations`, with `niter`
already decremented.  The values of `rand()` are given by `rand`, the one of call number `calls`
(from 0) being `rand calls`; the remainder `%` is the one of C, and a remainder by zero, which is
undefined in the source, is `none`. -/
def fill_loop (rand : Nat → Int) (niter : Int) :
    Nat → List Int → Int → Nat → Option (List Int)
  | 0, v, i, _ => if i < (v.length : Int) then none else some v
  | fuel + 1, v, i, calls =>
    if i < (v.length : Int) then
      match vec_get v i with
      | none => none
      | some vi =>
        if i ≠ vi then fill_loop rand niter fuel v (i + 1) calls
        else
          let min_idx := max 0 (i - 2 * niter)
          let max_idx := min ((v.length : Int) - 1) (i + 2 * niter)
          if max_idx - min_idx = 0 then none
          else
            let idx := min_idx + Int.tmod (rand calls) (max_idx - min_idx)
            match vec_get v idx with
            | none => none
            | some vidx =>
              if idx = vidx then
                fill_loop rand niter fuel ((v.set i.toNat vidx).set idx.toNat vi) (i + 1)
                  (calls + 1)
              else fill_loop rand niter fuel v (i + 1) (calls + 1)
    else some v

/-- The generator `fill_for_fixed_iterations(v, seed, niter)` on a vector of `N` elements, the
sequence of values of `rand()` after `srand(seed)` being `rand`.  The loop runs `v.size()`
rounds, which is the fuel. -/
def fill_for_fixed_iterations (rand : Nat → Int) (N : Nat) (niter : Int) : Option (List Int) :=
  if niter = 1 then some (iota N)
  else fill_loop rand (niter - 1) N (iota N) 0 0

/-! ## Static engine (`odd-even-par-static.cpp`): a phase of all workers -/

/-- The calls `sort_couples(A, start, end)` for a list of ranges, one after the other, with the
sum of the swap counts they return. -/
def apply_ranges : List (Int × Int) → List Int → Nat → Option (List Int × Nat)
  | [], A, nswaps => some (A, nswaps)
  | (start, end_) :: rest, A, nswaps =>
    match sort_couples A start end_ with
    | none => none
    | some (A1, n) => apply_ranges rest A1 (nswaps + n)

/-- The even phase of the static engine with `nw` workers on the vector `A`: every worker `t`
of `order` calls `sort_couples(A, start_e, end_e)`, in the order in which `order` lists them. -/
def static_even (nw : Int) (order : List Nat) (A : List Int) : Option (List Int × Nat) :=
  apply_ranges
    (order.map (fun (t : Nat) => (start_e A.length nw (t : Int), end_e A.length nw (t : Int)))) A 0

/-- The odd phase of the static engine with `nw` workers on the vector `A`: every worker `t`
of `order` calls `sort_couples(A, start_o, end_o)`, in the order in which `order` lists them. -/
def static_odd (nw : Int) (order : List Nat) (A : List Int) : Option (List Int × Nat) :=
  apply_ranges
    (order.map (fun (t : Nat) => (start_o A.length nw (t : Int), end_o A.length nw (t : Int)))) A 0

/-! ## Auxiliary notions used in the proofs -/

/-- The cut points of the static assignment of `C` couples to `nw` workers, as offsets from the
start of the phase: worker `t` owns the offsets from `tile C nw t` up to `tile C nw (t+1)`. -/
def tile (C nw t : Int) : Int := 2 * (t * (C / nw) + min (C % nw) t)

/-- The range of worker `t` in a phase that starts at index `b` and has `C` couples. -/
def phase_range (b : Nat) (C nw : Int) (t : Nat) : Int × Int :=
  ((b : Int) + tile C nw (t : Int), (b : Int) + tile C nw ((t : Int) + 1))

/-- The index `j` lies in the range of worker `t`. -/
def owns (b : Nat) (C nw : Int) (t j : Nat) : Prop :=
  (phase_range b C nw t).1 ≤ (j : Int) ∧ (j : Int) < (phase_range b C nw t).2

/-- Number of inversions of a vector: pairs of positions `p < q` with `A[q] < A[p]`. -/
def inversions : List Int → Nat
  | [] => 0
  | a :: l => l.countP (fun x => decide (x < a)) + inversions l

/-! ## Basic facts -/

theorem lor_eq_zero_iff (a b : Nat) : a ||| b = 0 ↔ a = 0 ∧ b = 0 := by
  constructor
  · intro h
    have key : ∀ i, a.testBit i = false ∧ b.testBit i = false := by
      intro i
      have := congrArg (fun n => Nat.testBit n i) h
      simpa [Nat.testBit_or] using this
    exact ⟨Nat.eq_of_testBit_eq (fun i => by simp [(key i).1]),
           Nat.eq_of_testBit_eq (fun i => by simp [(key i).2])⟩
  · rintro ⟨rfl, rfl⟩
    rfl

theorem vec_get_natCast (A : List Int) (n : Nat) : vec_get A (n : Int) = A[n]? := by
  unfold vec_get
  have : ¬ ((n : Int) < 0) := by omega
  simp [this]

theorem vec_get_natCast_succ (A : List Int) (n : Nat) : vec_get A ((n : Int) + 1) = A[n + 1]? := by
  have := vec_get_natCast A (n + 1)
  simpa using this

/-- Exchanging two neighbours, seen on the list structure. -/
theorem exchange_decomp : ∀ (n : Nat) (A : List Int) (a b : Int),
    A[n]? = some a → A[n + 1]? = some b →
    ∃ pre post, A = pre ++ a :: b :: post ∧ pre.length = n ∧
      (A.set n b).set (n + 1) a = pre ++ b :: a :: post
  | 0, [], _, _, h, _ => by simp at h
  | 0, [_], _, _, _, h => by simp at h
  | 0, x :: y :: post, a, b, ha, hb => by
    simp at ha hb
    subst ha hb
    exact ⟨[], post, by simp, rfl, by simp⟩
  | n + 1, [], _, _, h, _ => by simp at h
  | n + 1, x :: A, a, b, ha, hb => by
    simp at ha hb
    obtain ⟨pre, post, h1, h2, h3⟩ := exchange_decomp n A a b ha hb
    refine ⟨x :: pre, post, by simp [h1], by simp [h2], ?_⟩
    simp [h3]

theorem inversions_cons (a : Int) (l : List Int) :
    inversions (a :: l) = l.countP (fun x => decide (x < a)) + inversions l := rfl

theorem inversions_exchange (a b : Int) (hab : b < a) (post : List Int) :
    ∀ pre : List Int, inversions (pre ++ a :: b :: post) = inversions (pre ++ b :: a :: post) + 1
  | [] => by
    have h1 : ¬ (a < b) := by omega
    simp [inversions, List.countP_cons, hab, h1]
    omega
  | x :: pre => by
    have ih := inversions_exchange a b hab post pre
    simp only [List.cons_append, inversions_cons, ih, List.countP_append, List.countP_cons]
    omega

theorem exchange_perm (pre post : List Int) (a b : Int) :
    (pre ++ b :: a :: post).Perm (pre ++ a :: b :: post) :=
  List.Perm.append_left pre (List.Perm.swap a b post)

/-! ## The loop of `sort_couples`, one round at a time -/

theorem sort_couples_loop_done (fuel : Nat) (A : List Int) (i end_ : Int) (sw : Nat)
    (h : ¬ i < end_ - 1) : sort_couples_loop fuel A i end_ sw = some (A, sw) := by
  cases fuel <;> simp [sort_couples_loop, h]

theorem sort_couples_loop_round (fuel : Nat) (A : List Int) (n : Nat) (end_ : Int) (sw : Nat)
    (a b : Int) (h : (n : Int) < end_ - 1) (ha : A[n]? = some a) (hb : A[n + 1]? = some b) :
    sort_couples_loop (fuel + 1) A n end_ sw =
      if a > b then
        sort_couples_loop fuel ((A.set n b).set (n + 1) a) ((n + 2 : Nat) : Int) end_ (sw + 1)
      else sort_couples_loop fuel A ((n + 2 : Nat) : Int) end_ sw := by
  have e1 : ((n : Int) + 1).toNat = n + 1 := by omega
  have e2 : ((n + 2 : Nat) : Int) = (n : Int) + 2 := by push_cast; ring
  simp only [sort_couples_loop, h, if_true, vec_get_natCast, vec_get_natCast_succ, ha, hb,
    Int.toNat_ofNat, e1, e2]

/-- Inside the bounds the loop reads two elements of the vector. -/
theorem exists_couple (A : List Int) (n : Nat) (end_ : Int) (hend : end_ ≤ A.length)
    (h : (n : Int) < end_ - 1) : ∃ a b, A[n]? = some a ∧ A[n + 1]? = some b := by
  have h1 : n < A.length := by omega
  have h2 : n + 1 < A.length := by omega
  exact ⟨A[n], A[n + 1], List.getElem?_eq_getElem h1, List.getElem?_eq_getElem h2⟩

/-- With the bounds respected and fuel for the rounds left, the loop returns; the vector it
leaves is a permutation of the one it started from, of the same length, and every counted
exchange removes exactly one inversion. -/
theorem sort_couples_loop_total : ∀ (fuel : Nat) (A : List Int) (n : Nat) (end_ : Int) (sw : Nat),
    end_ ≤ A.length → (end_ - n).toNat ≤ fuel →
    ∃ A1 k, sort_couples_loop fuel A n end_ sw = some (A1, sw + k) ∧
      A1.length = A.length ∧ A1.Perm A ∧ inversions A1 + k = inversions A
  | 0, A, n, end_, sw, _, hf => by
    have h : ¬ (n : Int) < end_ - 1 := by omega
    exact ⟨A, 0, sort_couples_loop_done 0 A n end_ sw h, rfl, List.Perm.refl A, rfl⟩
  | fuel + 1, A, n, end_, sw, hend, hf => by
    by_cases h : (n : Int) < end_ - 1
    · obtain ⟨a, b, ha, hb⟩ := exists_couple A n end_ hend h
      rw [sort_couples_loop_round fuel A n end_ sw a b h ha hb]
      have hf2 : (end_ - ((n + 2 : Nat) : Int)).toNat ≤ fuel := by push_cast; omega
      by_cases hab : a > b
      · obtain ⟨pre, post, hA, _, hS⟩ := exchange_decomp n A a b ha hb
        have hlen : ((A.set n b).set (n + 1) a).length = A.length := by simp
        obtain ⟨A1, k, hk, hl, hp, hi⟩ :=
          sort_couples_loop_total fuel ((A.set n b).set (n + 1) a) (n + 2) end_ (sw + 1)
            (by rw [hlen]; exact hend) hf2
        refine ⟨A1, k + 1, ?_, hl.trans hlen, ?_, ?_⟩
        · rw [if_pos hab, hk]; congr 2; omega
        · rw [hS] at hp
          rw [hA]
          exact hp.trans (exchange_perm pre post a b)
        · rw [hS] at hi
          rw [hA, inversions_exchange a b hab post pre]
          omega
      · obtain ⟨A1, k, hk, hl, hp, hi⟩ :=
          sort_couples_loop_total fuel A (n + 2) end_ sw hend hf2
        exact ⟨A1, k, by rw [if_neg hab, hk], hl, hp, hi⟩
    · exact ⟨A, 0, sort_couples_loop_done _ A n end_ sw h, rfl, List.Perm.refl A, rfl⟩

/-- The counter never decreases; when it is unchanged, so is the vector, and every couple
the loop visited was in order. -/
theorem sort_couples_loop_zero : ∀ (fuel : Nat) (A : List Int) (n : Nat) (end_ : Int) (sw : Nat)
    (A1 : List Int) (sw1 : Nat), end_ ≤ A.length →
    sort_couples_loop fuel A n end_ sw = some (A1, sw1) →
    sw ≤ sw1 ∧ (sw1 = sw → A1 = A ∧
      ∀ j : Nat, n ≤ j → (j : Int) < end_ - 1 → (j - n) % 2 = 0 →
        ∃ a b, A[j]? = some a ∧ A[j + 1]? = some b ∧ a ≤ b)
  | 0, A, n, end_, sw, A1, sw1, _, hrun => by
    by_cases h : (n : Int) < end_ - 1
    · simp [sort_couples_loop, h] at hrun
    · simp [sort_couples_loop, h] at hrun
      obtain ⟨rfl, rfl⟩ := hrun
      refine ⟨le_refl _, fun _ => ⟨rfl, fun j hj1 hj2 _ => ?_⟩⟩
      omega
  | fuel + 1, A, n, end_, sw, A1, sw1, hend, hrun => by
    by_cases h : (n : Int) < end_ - 1
    · obtain ⟨a, b, ha, hb⟩ := exists_couple A n end_ hend h
      rw [sort_couples_loop_round fuel A n end_ sw a b h ha hb] at hrun
      by_cases hab : a > b
      · rw [if_pos hab] at hrun
        have hlen : ((A.set n b).set (n + 1) a).length = A.length := by simp
        have ih := sort_couples_loop_zero fuel _ (n + 2) end_ (sw + 1) A1 sw1
          (by rw [hlen]; exact hend) hrun
        refine ⟨by omega, fun hz => ?_⟩
        omega
      · rw [if_neg hab] at hrun
        obtain ⟨ih1, ih2⟩ := sort_couples_loop_zero fuel A (n + 2) end_ sw A1 sw1 hend hrun
        refine ⟨ih1, fun hz => ?_⟩
        obtain ⟨hA, hvis⟩ := ih2 hz
        refine ⟨hA, fun j hj1 hj2 hj3 => ?_⟩
        by_cases hjn : j = n
        · subst hjn
          exact ⟨a, b, ha, hb, by omega⟩
        · exact hvis j (by omega) hj2 (by omega)
    · rw [sort_couples_loop_done _ A n end_ sw h] at hrun
      simp at hrun
      obtain ⟨rfl, rfl⟩ := hrun
      refine ⟨le_refl _, fun _ => ⟨rfl, fun j hj1 hj2 _ => ?_⟩⟩
      omega

/-- When every couple the loop visits is in order, the loop changes nothing and counts nothing. -/
theorem sort_couples_loop_ordered : ∀ (fuel : Nat) (A : List Int) (n : Nat) (end_ : Int) (sw : Nat),
    end_ ≤ A.length → (end_ - n).toNat ≤ fuel →
    (∀ j : Nat, n ≤ j → (j : Int) < end_ - 1 → (j - n) % 2 = 0 →
        ∀ a b, A[j]? = some a → A[j + 1]? = some b → a ≤ b) →
    sort_couples_loop fuel A n end_ sw = some (A, sw)
  | 0, A, n, end_, sw, _, hf, _ => by
    have h : ¬ (n : Int) < end_ - 1 := by omega
    exact sort_couples_loop_done 0 A n end_ sw h
  | fuel + 1, A, n, end_, sw, hend, hf, hord => by
    by_cases h : (n : Int) < end_ - 1
    · obtain ⟨a, b, ha, hb⟩ := exists_couple A n end_ hend h
      rw [sort_couples_loop_round fuel A n end_ sw a b h ha hb]
      have hab : ¬ a > b := by
        have := hord n (le_refl n) h (by simp) a b ha hb
        omega
      rw [if_neg hab]
      have hf2 : (end_ - ((n + 2 : Nat) : Int)).toNat ≤ fuel := by push_cast; omega
      exact sort_couples_loop_ordered fuel A (n + 2) end_ sw hend hf2
        (fun j hj1 hj2 hj3 => hord j (by omega) hj2 (by omega))
    · exact sort_couples_loop_done _ A n end_ sw h

/-! ## `sort_couples` on a range inside the vector -/

theorem sort_couples_total (A : List Int) (start end_ : Int) (h0 : 0 ≤ start)
    (h1 : end_ ≤ A.length) :
    ∃ A1 k, sort_couples A start end_ = some (A1, k) ∧
      A1.length = A.length ∧ A1.Perm A ∧ inversions A1 + k = inversions A := by
  obtain ⟨n, rfl⟩ := Int.eq_ofNat_of_zero_le h0
  obtain ⟨A1, k, hk, hrest⟩ :=
    sort_couples_loop_total (end_ - (n : Int)).toNat A n end_ 0 h1 (le_refl _)
  exact ⟨A1, k, by simpa [sort_couples] using hk, hrest⟩

theorem sort_couples_zero (A A1 : List Int) (start end_ : Int) (h0 : 0 ≤ start)
    (h1 : end_ ≤ A.length) (hrun : sort_couples A start end_ = some (A1, 0)) :
    A1 = A ∧ ∀ j : Nat, start ≤ j → (j : Int) < end_ - 1 → (j - start) % 2 = 0 →
      ∃ a b, A[j]? = some a ∧ A[j + 1]? = some b ∧ a ≤ b := by
  obtain ⟨n, rfl⟩ := Int.eq_ofNat_of_zero_le h0
  obtain ⟨_, h⟩ := sort_couples_loop_zero _ A n end_ 0 A1 0 h1 hrun
  obtain ⟨hA, hvis⟩ := h rfl
  refine ⟨hA, fun j hj1 hj2 hj3 => hvis j (by omega) hj2 (by omega)⟩

theorem sort_couples_ordered (A : List Int) (start end_ : Int) (h0 : 0 ≤ start)
    (h1 : end_ ≤ A.length)
    (hord : ∀ j : Nat, ∀ a b, A[j]? = some a → A[j + 1]? = some b → a ≤ b) :
    sort_couples A start end_ = some (A, 0) := by
  obtain ⟨n, rfl⟩ := Int.eq_ofNat_of_zero_le h0
  exact sort_couples_loop_ordered _ A n end_ 0 h1 (le_refl _) (fun j _ _ _ => hord j)

/-! ## Ordered vectors -/

theorem sorted_of_adjacent : ∀ A : List Int,
    (∀ j : Nat, ∀ a b, A[j]? = some a → A[j + 1]? = some b → a ≤ b) →
    List.Sorted (fun x y => x ≤ y) A
  | [], _ => List.sorted_nil
  | [a], _ => List.sorted_singleton a
  | a :: b :: rest, h => by
    have hab : a ≤ b := h 0 a b (by simp) (by simp)
    have ih := sorted_of_adjacent (b :: rest)
      (fun j x y hx hy => h (j + 1) x y (by simpa using hx) (by simpa using hy))
    have hc : List.Chain' (fun x y : Int => x ≤ y) (a :: b :: rest) :=
      List.chain'_cons.mpr ⟨hab, List.chain'_iff_pairwise.mpr ih⟩
    exact List.chain'_iff_pairwise.mp hc

theorem adjacent_of_sorted : ∀ A : List Int, List.Sorted (fun x y => x ≤ y) A →
    ∀ j : Nat, ∀ a b, A[j]? = some a → A[j + 1]? = some b → a ≤ b
  | [], _, j, a, b, ha, _ => by simp at ha
  | [_], _, j, a, b, _, hb => by simp at hb
  | x :: y :: rest, hs, 0, a, b, ha, hb => by
    simp at ha hb
    subst ha hb
    exact List.rel_of_sorted_cons hs _ (List.mem_cons_self _ _)
  | x :: y :: rest, hs, j + 1, a, b, ha, hb =>
    adjacent_of_sorted (y :: rest) (List.Sorted.of_cons hs) j a b
      (by simpa using ha) (by simpa using hb)

theorem is_sorted_iff : ∀ A : List Int, is_sorted A = true ↔ List.Sorted (fun x y => x ≤ y) A
  | [] => by simp [is_sorted]
  | [a] => by simp [is_sorted]
  | a :: b :: rest => by
    have ih := is_sorted_iff (b :: rest)
    have hc : List.Sorted (fun x y : Int => x ≤ y) (a :: b :: rest) ↔
        a ≤ b ∧ List.Sorted (fun x y : Int => x ≤ y) (b :: rest) := by
      unfold List.Sorted
      rw [← List.chain'_iff_pairwise, ← List.chain'_iff_pairwise, List.chain'_cons]
    rw [hc, ← ih]
    simp [is_sorted]

/-! ## One iteration of the sequential engine -/

theorem even_end_le (N : Nat) : even_end N ≤ N := by
  unfold even_end; split <;> omega

theorem odd_end_le (N : Nat) : odd_end N ≤ N := by
  unfold odd_end; split <;> omega

/-- Every neighbouring couple of a vector of `N` elements is visited by the even phase or by
the odd phase. -/
theorem couple_visited (N j : Nat) (hj : j + 1 < N) :
    ((j : Int) < even_end N - 1 ∧ ((j : Int) - 0) % 2 = 0) ∨
    ((1 : Int) ≤ j ∧ (j : Int) < odd_end N - 1 ∧ ((j : Int) - 1) % 2 = 0) := by
  unfold even_end odd_end
  split <;> omega

/-- An even phase followed by an odd phase: both return, the vector stays a permutation of the
same length, the swaps counted are the inversions removed, and no swap is counted exactly when
the vector was ordered, in which case it is left as it was. -/
theorem seq_iteration (A : List Int) :
    ∃ A1 k1 A2 k2, sort_couples A 0 (even_end A.length) = some (A1, k1) ∧
      sort_couples A1 1 (odd_end A.length) = some (A2, k2) ∧
      A2.length = A.length ∧ A2.Perm A ∧
      inversions A2 + (k1 + k2) = inversions A ∧
      ((k1 = 0 ∧ k2 = 0) ↔ List.Sorted (fun x y => x ≤ y) A) ∧
      ((k1 = 0 ∧ k2 = 0) → A2 = A) := by
  obtain ⟨A1, k1, he, hl1, hp1, hi1⟩ :=
    sort_couples_total A 0 (even_end A.length) (le_refl 0) (even_end_le A.length)
  have hoe : odd_end A.length ≤ A1.length := by rw [hl1]; exact odd_end_le A.length
  obtain ⟨A2, k2, ho, hl2, hp2, hi2⟩ :=
    sort_couples_total A1 1 (odd_end A.length) (by omega) hoe
  refine ⟨A1, k1, A2, k2, he, ho, hl2.trans hl1, hp2.trans hp1, by omega, ?_, ?_⟩
  · constructor
    · rintro ⟨rfl, rfl⟩
      obtain ⟨hA1, hev⟩ := sort_couples_zero A A1 0 _ (le_refl 0) (even_end_le A.length) he
      obtain ⟨_, hod⟩ := sort_couples_zero A1 A2 1 _ (by omega) hoe ho
      subst hA1
      apply sorted_of_adjacent
      intro j a b ha hb
      have hj : j + 1 < A1.length := by
        by_contra hcon
        rw [List.getElem?_eq_none (by omega)] at hb
        exact Option.noConfusion hb
      rcases couple_visited A1.length j hj with ⟨h1, h2⟩ | ⟨h1, h2, h3⟩
      · obtain ⟨a1, b1, ha1, hb1, hle⟩ := hev j (by omega) h1 h2
        rw [ha] at ha1; rw [hb] at hb1
        cases ha1; cases hb1; exact hle
      · obtain ⟨a1, b1, ha1, hb1, hle⟩ := hod j h1 h2 h3
        rw [ha] at ha1; rw [hb] at hb1
        cases ha1; cases hb1; exact hle
    · intro hs
      have hord := adjacent_of_sorted A hs
      have he2 := sort_couples_ordered A 0 _ (le_refl 0) (even_end_le A.length) hord
      rw [he2] at he
      cases he
      have ho2 := sort_couples_ordered A 1 (odd_end A.length) (by omega)
        (odd_end_le A.length) hord
      rw [ho2] at ho
      cases ho
      exact ⟨rfl, rfl⟩
  · rintro ⟨rfl, rfl⟩
    obtain ⟨hA1, _⟩ := sort_couples_zero A A1 0 _ (le_refl 0) (even_end_le A.length) he
    obtain ⟨hA2, _⟩ := sort_couples_zero A1 A2 1 _ (by omega) hoe ho
    rw [hA2, hA1]

/-! ## The loop of the sequential engine -/

theorem seq_loop_exit (ee oe : Int) (fuel : Nat) (A : List Int) (iter : Nat) :
    seq_loop ee oe fuel A iter 0 = some (A, iter) := by
  cases fuel <;> simp [seq_loop]

theorem seq_loop_round (ee oe : Int) (fuel : Nat) (A A1 A2 : List Int) (iter sw k1 k2 : Nat)
    (hsw : sw ≠ 0) (he : sort_couples A 0 ee = some (A1, k1))
    (ho : sort_couples A1 1 oe = some (A2, k2)) :
    seq_loop ee oe (fuel + 1) A iter sw = seq_loop ee oe fuel A2 (iter + 1) (k1 ||| k2) := by
  simp [seq_loop, hsw, he, ho]

/-- More fuel does not change a result already obtained. -/
theorem seq_loop_fuel_succ (ee oe : Int) : ∀ (fuel : Nat) (A : List Int) (iter sw : Nat)
    (r : List Int × Nat), seq_loop ee oe fuel A iter sw = some r →
    seq_loop ee oe (fuel + 1) A iter sw = some r
  | 0, A, iter, sw, r, h => by
    by_cases hsw : sw = 0
    · subst hsw
      rw [seq_loop_exit] at h ⊢
      exact h
    · simp [seq_loop, hsw] at h
  | fuel + 1, A, iter, sw, r, h => by
    by_cases hsw : sw = 0
    · subst hsw
      rw [seq_loop_exit] at h ⊢
      exact h
    · cases he : sort_couples A 0 ee with
      | none => simp [seq_loop, hsw, he] at h
      | some p1 =>
        obtain ⟨A1, k1⟩ := p1
        cases ho : sort_couples A1 1 oe with
        | none => simp [seq_loop, hsw, he, ho] at h
        | some p2 =>
          obtain ⟨A2, k2⟩ := p2
          rw [seq_loop_round ee oe fuel A A1 A2 iter sw k1 k2 hsw he ho] at h
          rw [seq_loop_round ee oe (fuel + 1) A A1 A2 iter sw k1 k2 hsw he ho]
          exact seq_loop_fuel_succ ee oe fuel A2 (iter + 1) (k1 ||| k2) r h

theorem seq_loop_fuel_le (ee oe : Int) (A : List Int) (iter sw : Nat) (r : List Int × Nat)
    (fuel : Nat) (h : seq_loop ee oe fuel A iter sw = some r) :
    ∀ d : Nat, seq_loop ee oe (fuel + d) A iter sw = some r
  | 0 => h
  | d + 1 => seq_loop_fuel_succ ee oe (fuel + d) A iter sw r (seq_loop_fuel_le ee oe A iter sw r fuel h d)

/-- Two runs of the loop that both return, return the same. -/
theorem seq_loop_unique (ee oe : Int) (A : List Int) (iter sw : Nat) (r1 r2 : List Int × Nat)
    (f1 f2 : Nat) (h1 : seq_loop ee oe f1 A iter sw = some r1)
    (h2 : seq_loop ee oe f2 A iter sw = some r2) : r1 = r2 := by
  have e1 := seq_loop_fuel_le ee oe A iter sw r1 f1 h1 f2
  have e2 := seq_loop_fuel_le ee oe A iter sw r2 f2 h2 f1
  rw [Nat.add_comm] at e2
  rw [e1] at e2
  exact Option.some.inj e2

/-- The loop entered with `swapped` nonzero on a vector with at most `m` inversions returns
within `m + 1` iterations, and what it returns is an ordered permutation of the vector. -/
theorem seq_loop_sorts (N : Nat) : ∀ (m : Nat) (A : List Int) (iter sw : Nat),
    A.length = N → inversions A ≤ m → sw ≠ 0 →
    ∃ A3 d, seq_loop (even_end N) (odd_end N) (m + 1) A iter sw = some (A3, iter + 1 + d) ∧
      d ≤ m ∧ List.Sorted (fun x y => x ≤ y) A3 ∧ A3.Perm A
  | m, A, iter, sw, hN, hm, hsw => by
    obtain ⟨A1, k1, A2, k2, he, ho, hl, hp, hi, hz, hfix⟩ := seq_iteration A
    rw [hN] at he ho
    rw [seq_loop_round _ _ m A A1 A2 iter sw k1 k2 hsw he ho]
    by_cases hk : k1 ||| k2 = 0
    · have h0 := (lor_eq_zero_iff k1 k2).mp hk
      rw [hk, seq_loop_exit]
      have hA := hfix h0
      subst hA
      exact ⟨A2, 0, rfl, Nat.zero_le _, hz.mp h0, List.Perm.refl _⟩
    · have hpos : 0 < k1 + k2 := by
        rcases Nat.eq_zero_or_pos (k1 + k2) with h | h
        · exact absurd ((lor_eq_zero_iff k1 k2).mpr ⟨by omega, by omega⟩) hk
        · exact h
      match m, hm with
      | 0, hm => omega
      | m + 1, hm =>
        obtain ⟨A3, d, hrun, hd, hs, hp3⟩ :=
          seq_loop_sorts N m A2 (iter + 1) (k1 ||| k2) (hl.trans hN) (by omega) hk
        refine ⟨A3, d + 1, ?_, by omega, hs, hp3.trans hp⟩
        rw [hrun]
        congr 2
        omega

/-! ## Sequential engine: the claims -/

/-- C1. Sequential engine: for every vector the loop `while(swapped)` returns (with enough fuel,
and with the same result whatever the fuel), and the vector it leaves is non-decreasingly
ordered, so the final `assert(is_sorted(...))` holds. -/
theorem seq_sort_terminates_sorted (A : List Int) :
    ∃ fuel A3 iter, seq_sort fuel A = some (A3, iter) ∧
      (∀ fuel2 r, seq_sort fuel2 A = some r → r = (A3, iter)) ∧
      List.Sorted (fun x y => x ≤ y) A3 ∧ is_sorted A3 = true := by
  obtain ⟨A3, d, hrun, _, hs, _⟩ :=
    seq_loop_sorts A.length (inversions A) A 0 1 rfl (le_refl _) Nat.one_ne_zero
  refine ⟨inversions A + 1, A3, 0 + 1 + d, hrun, ?_, hs, (is_sorted_iff A3).mpr hs⟩
  intro fuel2 r h2
  exact seq_loop_unique _ _ A 0 1 r _ fuel2 _ h2 hrun

/-- C2. Sequential engine: the vector left when the loop returns is a permutation of the input
(same multiset, same length); and every call `sort_couples(A, start, end)` with `0 <= start` and
`end <= A.size()` returns and preserves the multiset and the length. -/
theorem seq_sort_permutation (A : List Int) :
    (∃ fuel A3 iter, seq_sort fuel A = some (A3, iter) ∧
      (∀ fuel2 r, seq_sort fuel2 A = some r → r = (A3, iter)) ∧
      A3.Perm A ∧ (A3 : Multiset Int) = (A : Multiset Int) ∧ A3.length = A.length) ∧
    (∀ start end_ : Int, 0 ≤ start → end_ ≤ A.length →
      ∃ A1 k, sort_couples A start end_ = some (A1, k) ∧
        A1.Perm A ∧ (A1 : Multiset Int) = (A : Multiset Int) ∧ A1.length = A.length) := by
  constructor
  · obtain ⟨A3, d, hrun, _, _, hp⟩ :=
      seq_loop_sorts A.length (inversions A) A 0 1 rfl (le_refl _) Nat.one_ne_zero
    refine ⟨inversions A + 1, A3, 0 + 1 + d, hrun, ?_, hp, Multiset.coe_eq_coe.mpr hp, hp.length_eq⟩
    intro fuel2 r h2
    exact seq_loop_unique _ _ A 0 1 r _ fuel2 _ h2 hrun
  · intro start end_ h0 h1
    obtain ⟨A1, k, hrun, hl, hp, _⟩ := sort_couples_total A start end_ h0 h1
    exact ⟨A1, k, hrun, hp, Multiset.coe_eq_coe.mpr hp, hl⟩

/-- Witness of C2: the range `[1, 4)` of the vector `[5, 9, 7, 3]`. -/
theorem seq_sort_permutation_witness :
    ∃ A1 k, sort_couples [5, 9, 7, 3] 1 4 = some (A1, k) ∧
      A1.Perm [5, 9, 7, 3] ∧ (A1 : Multiset Int) = (([5, 9, 7, 3] : List Int) : Multiset Int) ∧
      A1.length = ([5, 9, 7, 3] : List Int).length :=
  (seq_sort_permutation [5, 9, 7, 3]).2 1 4 (by decide) (by decide)

/-- C4. One sequential iteration: the even pass followed by the odd pass both return, and
the total number of swaps they return is zero if and only if the vector was already
non-decreasingly ordered; the same holds of the value `swapped` the loop tests, so the loop does
not stop on an unordered vector, and an unordered vector yields at least one swap. -/
theorem seq_iteration_zero_swaps_iff_sorted (A : List Int) :
    ∃ A1 k1 A2 k2, sort_couples A 0 (even_end A.length) = some (A1, k1) ∧
      sort_couples A1 1 (odd_end A.length) = some (A2, k2) ∧
      (k1 + k2 = 0 ↔ List.Sorted (fun x y => x ≤ y) A) ∧
      (k1 ||| k2 = 0 ↔ List.Sorted (fun x y => x ≤ y) A) ∧
      (¬ List.Sorted (fun x y => x ≤ y) A → 1 ≤ k1 + k2) := by
  obtain ⟨A1, k1, A2, k2, he, ho, _, _, _, hz, _⟩ := seq_iteration A
  refine ⟨A1, k1, A2, k2, he, ho, ?_, ?_, ?_⟩
  · rw [← hz]; omega
  · rw [← hz]; exact lor_eq_zero_iff k1 k2
  · intro hns
    rcases Nat.eq_zero_or_pos (k1 + k2) with h | h
    · exact absurd (hz.mp ⟨by omega, by omega⟩) hns
    · exact h

/-- C9. Already-sorted fixed point: on a non-decreasingly ordered vector the sequential engine
runs exactly one iteration (`iter = 1` at exit), both phases return zero swaps, and the vector
is left unchanged. -/
theorem seq_sort_sorted_input (A : List Int) (hs : List.Sorted (fun x y => x ≤ y) A) :
    (∀ fuel, seq_sort (fuel + 1) A = some (A, 1)) ∧ seq_sort 0 A = none ∧
    sort_couples A 0 (even_end A.length) = some (A, 0) ∧
    sort_couples A 1 (odd_end A.length) = some (A, 0) := by
  have hord := adjacent_of_sorted A hs
  have he := sort_couples_ordered A 0 _ (le_refl 0) (even_end_le A.length) hord
  have ho := sort_couples_ordered A 1 (odd_end A.length) (by omega) (odd_end_le A.length) hord
  refine ⟨fun fuel => ?_, by simp [seq_sort, seq_loop], he, ho⟩
  unfold seq_sort
  rw [seq_loop_round _ _ fuel A A A 0 1 0 0 Nat.one_ne_zero he ho]
  exact seq_loop_exit _ _ fuel A 1

/-- Witness of C9: the ordered vector `[1, 2, 2, 5]`. -/
theorem seq_sort_sorted_input_witness :
    (∀ fuel, seq_sort (fuel + 1) [1, 2, 2, 5] = some ([1, 2, 2, 5], 1)) ∧
    seq_sort 0 [1, 2, 2, 5] = none ∧
    sort_couples [1, 2, 2, 5] 0 (even_end ([1, 2, 2, 5] : List Int).length)
      = some ([1, 2, 2, 5], 0) ∧
    sort_couples [1, 2, 2, 5] 1 (odd_end ([1, 2, 2, 5] : List Int).length)
      = some ([1, 2, 2, 5], 0) :=
  seq_sort_sorted_input [1, 2, 2, 5] (by simp [List.Sorted])

/-- C10. Concrete scenario A: on the input `[4,3,2,1,0]` (which is what `fill_reversed` builds
for `N = 5`) the sequential engine ends with `[0,1,2,3,4]` and `iter = 4`; three iterations are
not enough, and no run returns anything else. -/
theorem seq_sort_reversed_five :
    fill_reversed 5 = [4, 3, 2, 1, 0] ∧
    seq_sort 4 [4, 3, 2, 1, 0] = some ([0, 1, 2, 3, 4], 4) ∧
    seq_sort 3 [4, 3, 2, 1, 0] = none ∧
    (∀ fuel r, seq_sort fuel [4, 3, 2, 1, 0] = some r → r = ([0, 1, 2, 3, 4], 4)) := by
  refine ⟨by decide, by decide, by decide, ?_⟩
  intro fuel r h
  exact seq_loop_unique _ _ _ 0 1 r _ fuel 4 h (by decide)

/-! ## The loop of `sort_couples` against its postcondition -/

theorem visits_shift (n : Nat) (end_ : Int) (i : Nat) (hi : i ≠ n) :
    visits ((n + 2 : Nat) : Int) end_ i = visits (n : Int) end_ i := by
  simp only [visits, decide_eq_decide]
  push_cast
  omega

theorem visits_before (s : Nat) (end_ : Int) (i : Nat) (hi : i < s) :
    visits (s : Int) end_ i = false := by
  simp only [visits, decide_eq_false_iff_not]
  omega

theorem visits_next (n : Nat) (end_ : Int) : visits (n : Int) end_ (n + 1) = false := by
  simp only [visits, decide_eq_false_iff_not]
  push_cast
  omega

theorem visits_inside (s : Nat) (end_ : Int) (i : Nat) (h : visits (s : Int) end_ i = true) :
    s ≤ i ∧ (i : Int) < end_ - 1 := by
  simp only [visits, decide_eq_true_eq] at h
  omega

theorem exchanged_inside (A : List Int) (s : Nat) (end_ : Int) (i : Nat)
    (h : exchanged A (s : Int) end_ i = true) : s ≤ i ∧ (i : Int) < end_ - 1 := by
  simp only [exchanged, Bool.and_eq_true] at h
  exact visits_inside s end_ i h.1

theorem out_of_order_of_get (A : List Int) (i : Nat) (a b : Int) (ha : A[i]? = some a)
    (hb : A[i + 1]? = some b) : out_of_order A i = decide (a > b) := by
  simp [out_of_order, ha, hb]

theorem out_of_order_congr (A B : List Int) (i : Nat) (h0 : B[i]? = A[i]?)
    (h1 : B[i + 1]? = A[i + 1]?) : out_of_order B i = out_of_order A i := by
  simp [out_of_order, h0, h1]

theorem getElem?_exchange (A : List Int) (n : Nat) (a b : Int) (j : Nat) (hj0 : j ≠ n)
    (hj1 : j ≠ n + 1) : ((A.set n b).set (n + 1) a)[j]? = A[j]? := by
  rw [List.getElem?_set, List.getElem?_set]
  rw [if_neg (fun h => hj1 h.symm), if_neg (fun h => hj0 h.symm)]

theorem getElem?_exchange_fst (A : List Int) (n : Nat) (a b : Int) (hn : n < A.length) :
    ((A.set n b).set (n + 1) a)[n]? = some b := by
  rw [List.getElem?_set, List.getElem?_set]
  simp [hn]

theorem getElem?_exchange_snd (A : List Int) (n : Nat) (a b : Int) (hn : n + 1 < A.length) :
    ((A.set n b).set (n + 1) a)[n + 1]? = some a := by
  rw [List.getElem?_set]
  simp [hn]

theorem countP_range_split (p q : Nat → Bool) (n : Nat) (hq : q n = false)
    (h : ∀ i, i ≠ n → q i = p i) : ∀ N : Nat, n < N →
    (List.range N).countP p = (if p n then 1 else 0) + (List.range N).countP q
  | 0, hn => by omega
  | N + 1, hn => by
    rw [List.range_succ, List.countP_append, List.countP_append]
    by_cases hN : n = N
    · subst hN
      have hc : (List.range n).countP p = (List.range n).countP q := by
        apply List.countP_congr
        intro x hx
        have hx2 : x ≠ n := by
          have := List.mem_range.mp hx
          omega
        rw [h x hx2]
      rw [hc]
      simp only [List.countP_cons, List.countP_nil, hq]
      simp
      omega
    · have ih := countP_range_split p q n hq h N (by omega)
      rw [ih]
      have hpq : q N = p N := h N (fun hc => hN hc.symm)
      simp only [List.countP_cons, List.countP_nil, hpq]
      omega

/-- One round of the loop at index `n`, seen from the postcondition: the vector `A2` left by the
round has the same couples to exchange from `n + 2` on as `A` has after `n`. -/
theorem exchanged_round (A A2 : List Int) (n : Nat) (end_ : Int) (a b : Int)
    (h : (n : Int) < end_ - 1) (ha : A[n]? = some a) (hb : A[n + 1]? = some b)
    (hfar : ∀ j, n + 2 ≤ j → A2[j]? = A[j]?) :
    (∀ i, i ≠ n → exchanged A2 ((n + 2 : Nat) : Int) end_ i = exchanged A (n : Int) end_ i) ∧
    exchanged A2 ((n + 2 : Nat) : Int) end_ n = false ∧
    exchanged A (n : Int) end_ n = decide (a > b) := by
  refine ⟨fun i hi => ?_, ?_, ?_⟩
  · unfold exchanged
    rw [visits_shift n end_ i hi]
    by_cases hlt : i < n + 2
    · have hv : visits (n : Int) end_ i = false := by
        by_cases hin : i < n
        · exact visits_before n end_ i hin
        · have : i = n + 1 := by omega
          subst this
          exact visits_next n end_
      simp [hv]
    · rw [out_of_order_congr A A2 i (hfar i (by omega)) (hfar (i + 1) (by omega))]
  · unfold exchanged
    rw [visits_before (n + 2) end_ n (by omega)]
    rfl
  · unfold exchanged
    have hv : visits (n : Int) end_ n = true := by
      simp only [visits, decide_eq_true_eq]
      omega
    rw [hv, out_of_order_of_get A n a b ha hb]
    rfl

theorem elem_spec_round (A A2 : List Int) (n : Nat) (end_ : Int) (a b : Int)
    (ha : A[n]? = some a) (hb : A[n + 1]? = some b)
    (hfar : ∀ j, j ≠ n → j ≠ n + 1 → A2[j]? = A[j]?)
    (hfst : A2[n]? = if a > b then some b else some a)
    (hsnd : A2[n + 1]? = if a > b then some a else some b)
    (hG1 : ∀ i, i ≠ n → exchanged A2 ((n + 2 : Nat) : Int) end_ i = exchanged A (n : Int) end_ i)
    (hG2 : exchanged A2 ((n + 2 : Nat) : Int) end_ n = false)
    (hG3 : exchanged A (n : Int) end_ n = decide (a > b)) (j : Nat) :
    elem_spec A2 ((n + 2 : Nat) : Int) end_ j = elem_spec A (n : Int) end_ j := by
  have hnext : exchanged A (n : Int) end_ (n + 1) = false := by
    simp [exchanged, visits_next]
  have hprev : ∀ i, i < n → exchanged A (n : Int) end_ i = false := fun i hi => by
    simp [exchanged, visits_before n end_ i hi]
  by_cases hj0 : j = n
  · subst hj0
    have hp : ¬ (1 ≤ j ∧ exchanged A2 ((j + 2 : Nat) : Int) end_ (j - 1) = true) := by
      rintro ⟨h1, h2⟩
      rw [hG1 (j - 1) (by omega), hprev (j - 1) (by omega)] at h2
      exact Bool.noConfusion h2
    have hp2 : ¬ (1 ≤ j ∧ exchanged A (j : Int) end_ (j - 1) = true) := by
      rintro ⟨h1, h2⟩
      rw [hprev (j - 1) (by omega)] at h2
      exact Bool.noConfusion h2
    unfold elem_spec
    rw [hG2, hG3, if_neg hp, if_neg hp2, hfst, hb]
    by_cases hab : a > b
    · simp [hab]
    · simp [hab, ha]
  · by_cases hj1 : j = n + 1
    · subst hj1
      unfold elem_spec
      rw [hG1 (n + 1) (by omega), hnext]
      simp only [Nat.add_sub_cancel, hG2, hG3, hsnd]
      by_cases hab : a > b
      · simp [hab, ha]
      · simp [hab, hb]
    · unfold elem_spec
      rw [hG1 j hj0]
      by_cases he : exchanged A (n : Int) end_ j = true
      · have := exchanged_inside A n end_ j he
        rw [if_pos he, if_pos he, hfar (j + 1) (by omega) (by omega)]
      · rw [if_neg he, if_neg he]
        by_cases hj : 1 ≤ j
        · rw [hG1 (j - 1) (by omega)]
          by_cases he2 : exchanged A (n : Int) end_ (j - 1) = true
          · have hne : j - 1 ≠ n + 1 := by
              intro hc
              rw [hc, hnext] at he2
              exact Bool.noConfusion he2
            rw [if_pos ⟨hj, he2⟩, if_pos ⟨hj, he2⟩, hfar (j - 1) (by omega) hne]
          · rw [if_neg (fun hc => he2 hc.2), if_neg (fun hc => he2 hc.2), hfar j hj0 hj1]
        · rw [if_neg (fun hc => hj hc.1), if_neg (fun hc => hj hc.1), hfar j hj0 hj1]

/-- With the bounds respected, the loop entered at index `n` returns the exchanges the
postcondition describes, and counts them. -/
theorem sort_couples_loop_spec : ∀ (fuel : Nat) (A : List Int) (n : Nat) (end_ : Int) (sw : Nat),
    end_ ≤ A.length → (end_ - n).toNat ≤ fuel →
    ∃ A1, sort_couples_loop fuel A n end_ sw = some (A1, sw + swaps_spec A (n : Int) end_) ∧
      ∀ j, A1[j]? = elem_spec A (n : Int) end_ j
  | fuel, A, n, end_, sw, hend, hf => by
    by_cases h : (n : Int) < end_ - 1
    · match fuel, hf with
      | 0, hf => omega
      | fuel + 1, hf =>
        obtain ⟨a, b, ha, hb⟩ := exists_couple A n end_ hend h
        have hn0 : n < A.length := by omega
        have hn1 : n + 1 < A.length := by omega
        rw [sort_couples_loop_round fuel A n end_ sw a b h ha hb]
        have hf2 : (end_ - ((n + 2 : Nat) : Int)).toNat ≤ fuel := by push_cast; omega
        by_cases hab : a > b
        · have hlen : ((A.set n b).set (n + 1) a).length = A.length := by simp
          obtain ⟨A1, hk, hel⟩ :=
            sort_couples_loop_spec fuel ((A.set n b).set (n + 1) a) (n + 2) end_ (sw + 1)
              (by rw [hlen]; exact hend) hf2
          obtain ⟨hG1, hG2, hG3⟩ := exchanged_round A ((A.set n b).set (n + 1) a) n end_ a b
            h ha hb (fun j hj => getElem?_exchange A n a b j (by omega) (by omega))
          have hcount := countP_range_split (exchanged A (n : Int) end_)
            (exchanged ((A.set n b).set (n + 1) a) ((n + 2 : Nat) : Int) end_) n hG2 hG1
            A.length hn0
          refine ⟨A1, ?_, fun j => ?_⟩
          · rw [if_pos hab, hk]
            unfold swaps_spec
            rw [hcount, hG3, hlen]
            simp [hab]
            omega
          · rw [hel j]
            exact elem_spec_round A _ n end_ a b ha hb
              (fun j hj0 hj1 => getElem?_exchange A n a b j hj0 hj1)
              (by rw [getElem?_exchange_fst A n a b hn0, if_pos hab])
              (by rw [getElem?_exchange_snd A n a b hn1, if_pos hab])
              hG1 hG2 hG3 j
        · obtain ⟨A1, hk, hel⟩ := sort_couples_loop_spec fuel A (n + 2) end_ sw hend hf2
          obtain ⟨hG1, hG2, hG3⟩ := exchanged_round A A n end_ a b h ha hb (fun j _ => rfl)
          have hcount := countP_range_split (exchanged A (n : Int) end_)
            (exchanged A ((n + 2 : Nat) : Int) end_) n hG2 hG1 A.length hn0
          refine ⟨A1, ?_, fun j => ?_⟩
          · rw [if_neg hab, hk]
            unfold swaps_spec
            rw [hcount, hG3]
            simp [hab]
          · rw [hel j]
            exact elem_spec_round A A n end_ a b ha hb (fun j _ _ => rfl)
              (by rw [if_neg hab, ha]) (by rw [if_neg hab, hb]) hG1 hG2 hG3 j
    · have hnone : ∀ i, exchanged A (n : Int) end_ i = false := fun i => by
        have : visits (n : Int) end_ i = false := by
          simp only [visits, decide_eq_false_iff_not]
          omega
        simp [exchanged, this]
      refine ⟨A, ?_, fun j => ?_⟩
      · rw [sort_couples_loop_done fuel A n end_ sw h]
        have : swaps_spec A (n : Int) end_ = 0 := by
          unfold swaps_spec
          rw [List.countP_eq_zero]
          intro i _
          simp [hnone i]
        rw [this]
        rfl
      · simp [elem_spec, hnone]

theorem visits_parity (s : Nat) (end_ : Int) (i : Nat) (h : visits (s : Int) end_ i = true) :
    visits (s : Int) end_ (i + 1) = false ∧ (1 ≤ i → visits (s : Int) end_ (i - 1) = false) := by
  simp only [visits, decide_eq_true_eq] at h
  simp only [visits, decide_eq_false_iff_not]
  constructor
  · push_cast; omega
  · intro h1; omega

/-- The postcondition leaves every visited couple in order. -/
theorem elem_spec_ordered (A : List Int) (s : Nat) (end_ : Int) (hend : end_ ≤ A.length)
    (i : Nat) (hv : visits (s : Int) end_ i = true) :
    ∃ x y, elem_spec A (s : Int) end_ i = some x ∧ elem_spec A (s : Int) end_ (i + 1) = some y ∧
      x ≤ y := by
  obtain ⟨hp1, hp2⟩ := visits_parity s end_ i hv
  obtain ⟨_, hi⟩ := visits_inside s end_ i hv
  obtain ⟨a, b, ha, hb⟩ := exists_couple A i end_ hend hi
  have e0 : exchanged A (s : Int) end_ i = decide (a > b) := by
    simp [exchanged, hv, out_of_order_of_get A i a b ha hb]
  have e1 : exchanged A (s : Int) end_ (i + 1) = false := by simp [exchanged, hp1]
  have e2 : ¬ (1 ≤ i ∧ exchanged A (s : Int) end_ (i - 1) = true) := by
    rintro ⟨h1, h2⟩
    simp [exchanged, hp2 h1] at h2
  by_cases hab : a > b
  · refine ⟨b, a, ?_, ?_, by omega⟩
    · simp [elem_spec, e0, hab, hb]
    · simp [elem_spec, e0, e1, hab, ha]
  · refine ⟨a, b, ?_, ?_, by omega⟩
    · unfold elem_spec
      rw [if_neg (by simp [e0, hab]), if_neg e2, ha]
    · simp [elem_spec, e0, e1, hab, hb]

/-- The postcondition changes nothing outside `[start, end)`. -/
theorem elem_spec_outside (A : List Int) (s : Nat) (end_ : Int) (j : Nat)
    (hj : (j : Int) < s ∨ end_ ≤ j) : elem_spec A (s : Int) end_ j = A[j]? := by
  have e0 : exchanged A (s : Int) end_ j = false := by
    have : visits (s : Int) end_ j = false := by
      simp only [visits, decide_eq_false_iff_not]; omega
    simp [exchanged, this]
  have e1 : ¬ (1 ≤ j ∧ exchanged A (s : Int) end_ (j - 1) = true) := by
    rintro ⟨h1, h2⟩
    have := exchanged_inside A s end_ (j - 1) h2
    omega
  unfold elem_spec
  rw [e0, if_neg e1]
  simp

/-- The postcondition depends only on the elements inside `[start, end)`. -/
theorem exchanged_agree (A B : List Int) (s : Nat) (end_ : Int)
    (hAB : ∀ j : Nat, (s : Int) ≤ j → (j : Int) < end_ → B[j]? = A[j]?) (i : Nat) :
    exchanged B (s : Int) end_ i = exchanged A (s : Int) end_ i := by
  unfold exchanged
  by_cases hv : visits (s : Int) end_ i = true
  · obtain ⟨h1, h2⟩ := visits_inside s end_ i hv
    rw [out_of_order_congr A B i (hAB i (by omega) (by omega))
      (hAB (i + 1) (by push_cast; omega) (by push_cast; omega))]
  · have : visits (s : Int) end_ i = false := by simpa using hv
    simp [this]

theorem elem_spec_agree (A B : List Int) (s : Nat) (end_ : Int)
    (hAB : ∀ j : Nat, (s : Int) ≤ j → (j : Int) < end_ → B[j]? = A[j]?) (j : Nat)
    (hj0 : (s : Int) ≤ j) (hj1 : (j : Int) < end_) :
    elem_spec B (s : Int) end_ j = elem_spec A (s : Int) end_ j := by
  unfold elem_spec
  rw [exchanged_agree A B s end_ hAB j, exchanged_agree A B s end_ hAB (j - 1)]
  by_cases he : exchanged A (s : Int) end_ j = true
  · have := exchanged_inside A s end_ j he
    rw [if_pos he, if_pos he, hAB (j + 1) (by push_cast; omega) (by push_cast; omega)]
  · rw [if_neg he, if_neg he]
    by_cases he2 : 1 ≤ j ∧ exchanged A (s : Int) end_ (j - 1) = true
    · have := exchanged_inside A s end_ (j - 1) he2.2
      rw [if_pos he2, if_pos he2, hAB (j - 1) (by omega) (by omega)]
    · rw [if_neg he2, if_neg he2, hAB j hj0 hj1]

theorem swaps_spec_agree (A B : List Int) (s : Nat) (end_ : Int) (hlen : B.length = A.length)
    (hAB : ∀ j : Nat, (s : Int) ≤ j → (j : Int) < end_ → B[j]? = A[j]?) :
    swaps_spec B (s : Int) end_ = swaps_spec A (s : Int) end_ := by
  unfold swaps_spec
  rw [hlen]
  apply List.countP_congr
  intro i _
  rw [exchanged_agree A B s end_ hAB i]



/-- C7. PhaseOperation postcondition: for `0 <= start` and `end <= A.size()` the call
`sort_couples(A, start, end)` returns the number of indices `i` in `start, start+2, ...` with
`i < end-1` and `A[i] > A[i+1]` in the input; the vector it leaves has exactly those couples
exchanged and every other position unchanged; afterwards every visited couple is in order;
positions outside `[start, end)` are not written, and not read either: on a
vector that differs only outside `[start, end)` the call returns the same count and leaves the
same elements inside the range, the other elements being untouched. -/
theorem sort_couples_postcondition (A : List Int) (start end_ : Int) (h0 : 0 ≤ start)
    (h1 : end_ ≤ A.length) :
    ∃ A1, sort_couples A start end_ = some (A1, swaps_spec A start end_) ∧
      A1.length = A.length ∧
      (∀ j, A1[j]? = elem_spec A start end_ j) ∧
      (∀ i : Nat, visits start end_ i = true →
        ∃ x y, A1[i]? = some x ∧ A1[i + 1]? = some y ∧ x ≤ y) ∧
      (∀ j : Nat, ((j : Int) < start ∨ end_ ≤ j) → A1[j]? = A[j]?) ∧
      (∀ B : List Int, B.length = A.length →
        (∀ j : Nat, start ≤ j → (j : Int) < end_ → B[j]? = A[j]?) →
        ∃ B1, sort_couples B start end_ = some (B1, swaps_spec A start end_) ∧
          (∀ j : Nat, start ≤ j → (j : Int) < end_ → B1[j]? = A1[j]?) ∧
          (∀ j : Nat, ((j : Int) < start ∨ end_ ≤ j) → B1[j]? = B[j]?)) := by
  obtain ⟨n, rfl⟩ := Int.eq_ofNat_of_zero_le h0
  obtain ⟨A1, hrun, hel⟩ :=
    sort_couples_loop_spec (end_ - (n : Int)).toNat A n end_ 0 h1 (le_refl _)
  rw [Nat.zero_add] at hrun
  obtain ⟨A1t, k, hrunt, hlen, _, _⟩ := sort_couples_total A n end_ h0 h1
  have hsame : A1t = A1 := by
    unfold sort_couples at hrunt
    rw [hrun] at hrunt
    cases hrunt
    rfl
  subst hsame
  refine ⟨A1t, hrun, hlen, hel, ?_, ?_, ?_⟩
  · intro i hv
    obtain ⟨x, y, hx, hy, hxy⟩ := elem_spec_ordered A n end_ h1 i hv
    exact ⟨x, y, by rw [hel, hx], by rw [hel, hy], hxy⟩
  · intro j hj
    rw [hel, elem_spec_outside A n end_ j hj]
  · intro B hlenB hAB
    obtain ⟨B1, hrunB, helB⟩ :=
      sort_couples_loop_spec (end_ - (n : Int)).toNat B n end_ 0 (by rw [hlenB]; exact h1)
        (le_refl _)
    rw [Nat.zero_add, swaps_spec_agree A B n end_ hlenB hAB] at hrunB
    refine ⟨B1, hrunB, ?_, ?_⟩
    · intro j hj0 hj1
      rw [helB, hel, elem_spec_agree A B n end_ hAB j hj0 hj1]
    · intro j hj
      rw [helB, elem_spec_outside B n end_ j hj]

/-- Witness of C7: the range `[1, 5)` of the vector `[9, 4, 2, 7, 8, 1]`. -/
theorem sort_couples_postcondition_witness :
    ∃ A1, sort_couples [9, 4, 2, 7, 8, 1] 1 5 = some (A1, swaps_spec [9, 4, 2, 7, 8, 1] 1 5) ∧
      A1.length = ([9, 4, 2, 7, 8, 1] : List Int).length ∧
      (∀ j, A1[j]? = elem_spec [9, 4, 2, 7, 8, 1] 1 5 j) ∧
      (∀ i : Nat, visits 1 5 i = true →
        ∃ x y, A1[i]? = some x ∧ A1[i + 1]? = some y ∧ x ≤ y) ∧
      (∀ j : Nat, ((j : Int) < 1 ∨ (5 : Int) ≤ j) → A1[j]? = ([9, 4, 2, 7, 8, 1] : List Int)[j]?) ∧
      (∀ B : List Int, B.length = ([9, 4, 2, 7, 8, 1] : List Int).length →
        (∀ j : Nat, (1 : Int) ≤ j → (j : Int) < 5 → B[j]? = ([9, 4, 2, 7, 8, 1] : List Int)[j]?) →
        ∃ B1, sort_couples B 1 5 = some (B1, swaps_spec [9, 4, 2, 7, 8, 1] 1 5) ∧
          (∀ j : Nat, (1 : Int) ≤ j → (j : Int) < 5 → B1[j]? = A1[j]?) ∧
          (∀ j : Nat, ((j : Int) < 1 ∨ (5 : Int) ≤ j) → B1[j]? = B[j]?)) :=
  sort_couples_postcondition [9, 4, 2, 7, 8, 1] 1 5 (by decide) (by decide)

/-! ## Chunk dispenser -/

theorem wrap32_of_range (x : Int) (h0 : -(2 ^ 31) ≤ x) (h1 : x ≤ INT_MAX) : wrap32 x = x := by
  unfold wrap32
  unfold INT_MAX at h1
  omega

theorem claim_spec_shift (c S v : Int) (k : Nat) :
    claim_spec c S (v + c) k = claim_spec c S v (k + 1) := by
  unfold claim_spec
  have e1 : v + c + (k : Int) * c = v + ((k + 1 : Nat) : Int) * c := by push_cast; ring
  have e2 : v + c + ((k : Int) + 1) * c = v + (((k + 1 : Nat) : Int) + 1) * c := by
    push_cast; ring
  rw [e1, e2]

/-- As long as the cursor stays in the range of `int`, the calls answer as described. -/
theorem claims_eq_spec : ∀ (m : Nat) (c S v : Int), 0 < c → 0 ≤ v → v + m * c ≤ INT_MAX →
    (TaskManager.mk v c S).claims m = (List.range m).map (claim_spec c S v)
  | 0, _, _, _, _, _, _ => rfl
  | m + 1, c, S, v, hc, hv, hm => by
    have hmc : 0 ≤ (m : Int) * c := mul_nonneg (by omega) (le_of_lt hc)
    have hm2 : v + c + (m : Int) * c ≤ INT_MAX := by
      have : v + ((m + 1 : Nat) : Int) * c = v + c + (m : Int) * c := by push_cast; ring
      rw [← this]; exact hm
    have hw : wrap32 (v + c) = v + c := wrap32_of_range _ (by omega) (by omega)
    have ih := claims_eq_spec m c S (v + c) hc (by omega) hm2
    have hstep : (TaskManager.mk v c S).claims (m + 1) =
        claim_spec c S v 0 :: (TaskManager.mk (v + c) c S).claims m := by
      simp only [TaskManager.claims, TaskManager.get_task, hw]
      by_cases hs : v ≥ S
      · have hs2 : ¬ v < S := by omega
        simp [hs, hs2, claim_spec]
      · have hs2 : v < S := by omega
        simp [hs, hs2, claim_spec]
    rw [hstep, ih, List.range_succ_eq_map, List.map_cons, List.map_map]
    congr 1
    apply List.map_congr_left
    intro k _
    exact claim_spec_shift c S v k

theorem claims_after_eq_spec (c S v : Int) (m : Nat) (hc : 0 < c) (hv : 0 ≤ v)
    (hm : v + m * c ≤ INT_MAX) : claims_after c S v m = (List.range m).map (claim_spec c S v) :=
  claims_eq_spec m c S v hc hv hm

theorem spec_getElem? (c S v : Int) (m k : Nat) :
    ((List.range m).map (claim_spec c S v))[k]? = if k < m then some (claim_spec c S v k) else none := by
  by_cases hk : k < m
  · simp [hk, List.getElem?_range hk]
  · simp [hk]
    omega

theorem claim_spec_some (c S v : Int) (k : Nat) (s e : Int)
    (h : claim_spec c S v k = some (s, e)) :
    v + k * c < S ∧ s = v + k * c ∧ e = min S (v + (k + 1) * c) := by
  unfold claim_spec at h
  by_cases hlt : v + k * c < S
  · rw [if_pos hlt] at h
    cases h
    exact ⟨hlt, rfl, rfl⟩
  · rw [if_neg hlt] at h
    exact Option.noConfusion h

theorem spec_entry (c S v : Int) (m k : Nat) (s e : Int)
    (h : ((List.range m).map (claim_spec c S v))[k]? = some (some (s, e))) :
    k < m ∧ v + k * c < S ∧ s = v + k * c ∧ e = min S (v + (k + 1) * c) := by
  rw [spec_getElem?] at h
  by_cases hk : k < m
  · rw [if_pos hk] at h
    exact ⟨hk, claim_spec_some c S v k s e (Option.some.inj h)⟩
  · rw [if_neg hk] at h
    exact Option.noConfusion h

/-- C5 (amended). ChunkDispenser partition: for a chunk size `c > 0`, a domain size `S` (in
particular `S >= 0`) and a start value `v >= 0`, and for as many calls `m` as keep the cursor in
the range of `int`
(`v + m*c <= INT_MAX`), the successive `get_task` calls made after `set_index(v)` return
exactly the ranges `[v + k*c, min(S, v + (k+1)*c))` for `k = 0, 1, ...` while `v + k*c < S`, and
report exhausted on every later one of these calls; the ranges lie in `[v, S)`, are not empty,
are increasing and pairwise disjoint, and cover every index of `[v, S)` below `v + m*c`. -/
theorem claims_partition (c S v : Int) (m : Nat) (hc : 0 < c) (hv : 0 ≤ v)
    (hm : v + m * c ≤ INT_MAX) :
    claims_after c S v m = (List.range m).map (claim_spec c S v) ∧
    (∀ k : Nat, k < m → v + k * c < S →
      (claims_after c S v m)[k]? = some (some (v + k * c, min S (v + (k + 1) * c)))) ∧
    (∀ k : Nat, k < m → S ≤ v + k * c → (claims_after c S v m)[k]? = some none) ∧
    (∀ (k : Nat) (s e : Int), (claims_after c S v m)[k]? = some (some (s, e)) →
      v ≤ s ∧ s < e ∧ e ≤ S) ∧
    (∀ (k k2 : Nat) (s e s2 e2 : Int), k < k2 →
      (claims_after c S v m)[k]? = some (some (s, e)) →
      (claims_after c S v m)[k2]? = some (some (s2, e2)) → e ≤ s2) ∧
    (∀ x : Int, v ≤ x → x < S → x < v + m * c →
      ∃ (k : Nat) (s e : Int), (claims_after c S v m)[k]? = some (some (s, e)) ∧
        s ≤ x ∧ x < e) := by
  have hspec := claims_after_eq_spec c S v m hc hv hm
  rw [hspec]
  refine ⟨rfl, ?_, ?_, ?_, ?_, ?_⟩
  · intro k hk hlt
    rw [spec_getElem?, if_pos hk]
    simp [claim_spec, hlt]
  · intro k hk hge
    rw [spec_getElem?, if_pos hk]
    have : ¬ v + k * c < S := by omega
    simp [claim_spec, this]
  · intro k s e h
    obtain ⟨_, h1, rfl, rfl⟩ := spec_entry c S v m k s e h
    have hkc : 0 ≤ (k : Int) * c := mul_nonneg (by omega) (le_of_lt hc)
    have hexp : v + ((k : Int) + 1) * c = v + k * c + c := by ring
    rw [hexp]
    refine ⟨by omega, ?_, min_le_left _ _⟩
    exact lt_min h1 (by omega)
  · intro k k2 s e s2 e2 hlt h h2
    obtain ⟨_, _, rfl, rfl⟩ := spec_entry c S v m k s e h
    obtain ⟨_, _, rfl, _⟩ := spec_entry c S v m k2 s2 e2 h2
    have hle : ((k : Int) + 1) * c ≤ (k2 : Int) * c :=
      mul_le_mul_of_nonneg_right (by omega) (le_of_lt hc)
    exact le_trans (min_le_right _ _) (by omega)
  · intro x hx0 hx1 hx2
    have hq0 : 0 ≤ (x - v) / c := Int.ediv_nonneg (by omega) (le_of_lt hc)
    obtain ⟨k, hk⟩ := Int.eq_ofNat_of_zero_le hq0
    have h1 : (x - v) / c * c ≤ x - v := Int.ediv_mul_le _ (ne_of_gt hc)
    have h2 : x - v < ((x - v) / c + 1) * c := Int.lt_ediv_add_one_mul_self _ hc
    rw [hk] at h1 h2
    have hkm : k < m := by
      by_contra hcon
      have hle : (m : Int) * c ≤ (k : Int) * c :=
        mul_le_mul_of_nonneg_right (by omega) (le_of_lt hc)
      omega
    have hlt : v + (k : Int) * c < S := by omega
    refine ⟨k, v + k * c, min S (v + (k + 1) * c), ?_, by omega, ?_⟩
    · rw [spec_getElem?, if_pos hkm]
      simp [claim_spec, hlt]
    · exact lt_min hx1 (by omega)

/-- Witness of C5 (amended), which is the scenario `c = 3`, `S = 10`, `v = 0`: the calls return
`[0,3)`, `[3,6)`, `[6,9)`, `[9,10)`, then exhausted. -/
theorem claims_partition_witness :
    claims_after 3 10 0 6 = [some (0, 3), some (3, 6), some (6, 9), some (9, 10), none, none] ∧
    claims_after 3 10 0 6 = (List.range 6).map (claim_spec 3 10 0) ∧
    (∀ (k k2 : Nat) (s e s2 e2 : Int), k < k2 →
      (claims_after 3 10 0 6)[k]? = some (some (s, e)) →
      (claims_after 3 10 0 6)[k2]? = some (some (s2, e2)) → e ≤ s2) :=
  have h := claims_partition 3 10 0 6 (by decide) (by decide) (by decide)
  ⟨by decide, h.1, h.2.2.2.2.1⟩

/-- Counterexample to C5 as stated: with `c = 2147483647`, `S = 10`, `v = 0` the first call
returns `[0, 10)`, the second reports exhausted, and the third, which finds the cursor wrapped
around to `-2`, returns the range `[-2, 10)` where the description says exhausted. -/
theorem claims_after_wrap :
    claims_after 2147483647 10 0 3 = [some (0, 10), none, some (-2, 10)] ∧
    claim_spec 2147483647 10 0 2 = none ∧
    claims_after 2147483647 10 0 3 ≠ (List.range 3).map (claim_spec 2147483647 10 0) := by
  refine ⟨by decide, by decide, by decide⟩

/-! ## Static range assignment -/

theorem couples_e_eq (N : Int) (hN : 0 ≤ N) : couples_e N = N / 2 ∧ 0 ≤ couples_e N := by
  unfold couples_e
  rw [Int.tdiv_eq_ediv hN (by decide)]
  omega

theorem couples_o_eq (N : Int) (hN : 0 ≤ N) :
    couples_o N = (if N = 0 then 0 else (N - 1) / 2) ∧ 0 ≤ couples_o N := by
  unfold couples_o
  by_cases h0 : N = 0
  · subst h0
    simp
    decide
  · rw [Int.tdiv_eq_ediv (by omega) (by decide), if_neg h0]
    omega

/-- The range of worker `t` in a phase of `C` couples: its length is twice the balanced share. -/
theorem range_length (C nw t : Int) (hC : 0 ≤ C) (hnw : 1 ≤ nw) (ht0 : 0 ≤ t) (ht1 : t < nw) :
    (if t = nw - 1 then 2 * C
      else range_offset C nw t + 2 * (Int.tdiv C nw + (if t < Int.tmod C nw then 1 else 0)))
      - range_offset C nw t = 2 * balanced_share C nw t := by
  unfold range_offset balanced_share
  rw [Int.tdiv_eq_ediv hC (by omega), Int.tmod_eq_emod hC (by omega)]
  have hdm : nw * (C / nw) + C % nw = C := Int.ediv_add_emod C nw
  have hr0 : 0 ≤ C % nw := Int.emod_nonneg C (by omega)
  have hr1 : C % nw < nw := Int.emod_lt_of_pos C (by omega)
  generalize C / nw = q at *
  generalize C % nw = r at *
  by_cases hlast : t = nw - 1
  · have hexp : (nw - 1) * q = nw * q - q := by ring
    rw [if_pos hlast]
    subst hlast
    rw [hexp]
    have hmin : min r (nw - 1) = r := min_eq_left (by omega)
    rw [hmin]
    have hnlt : ¬ (nw - 1 < r) := by omega
    rw [if_neg hnlt]
    by_cases h0 : nw - 1 = 0
    · rw [if_pos h0]
      have : nw = 1 := by omega
      subst this
      omega
    · rw [if_neg h0]
      omega
  · rw [if_neg hlast]
    omega

theorem sum_indicator (r : Int) (hr : 0 ≤ r) : ∀ n : Nat,
    (∑ t ∈ Finset.range n, (if ((t : Nat) : Int) < r then (1 : Int) else 0)) = min (n : Int) r
  | 0 => by simp [hr]
  | n + 1 => by
    rw [Finset.sum_range_succ, sum_indicator r hr n]
    by_cases h : (n : Int) < r
    · rw [if_pos h, min_eq_left (by omega), min_eq_left (by push_cast; omega)]
      push_cast
      ring
    · rw [if_neg h, min_eq_right (by omega), min_eq_right (by push_cast; omega)]
      ring

theorem sum_balanced_share (C nw : Int) (hnw : 1 ≤ nw) :
    (∑ t ∈ Finset.range nw.toNat, balanced_share C nw ((t : Nat) : Int)) = C := by
  unfold balanced_share
  have hdm : nw * (C / nw) + C % nw = C := Int.ediv_add_emod C nw
  have hr0 : 0 ≤ C % nw := Int.emod_nonneg C (by omega)
  have hr1 : C % nw < nw := Int.emod_lt_of_pos C (by omega)
  rw [Finset.sum_add_distrib, sum_indicator (C % nw) hr0 nw.toNat, Finset.sum_const,
    Finset.card_range, min_eq_right (by omega), nsmul_eq_mul]
  have hcast : ((nw.toNat : Nat) : Int) = nw := by omega
  rw [hcast]
  exact hdm

theorem balanced_share_mono (C nw t t2 : Int) (hle : t ≤ t2) :
    balanced_share C nw t2 ≤ balanced_share C nw t ∧
    balanced_share C nw t ≤ balanced_share C nw t2 + 1 := by
  unfold balanced_share
  constructor <;> split <;> split <;> omega

theorem couples_of_even_range (N nw t : Int) (hN : 0 ≤ N) (hnw : 1 ≤ nw) (ht0 : 0 ≤ t)
    (ht1 : t < nw) :
    Int.tdiv (end_e N nw t - start_e N nw t) 2 = balanced_share (couples_e N) nw t := by
  have h := range_length (couples_e N) nw t (couples_e_eq N hN).2 hnw ht0 ht1
  have hlen : end_e N nw t - start_e N nw t = 2 * balanced_share (couples_e N) nw t := by
    rw [← h]
    unfold end_e start_e
    rfl
  rw [hlen, Int.mul_tdiv_cancel_left _ (by decide)]

theorem couples_of_odd_range (N nw t : Int) (hN : 0 ≤ N) (hnw : 1 ≤ nw) (ht0 : 0 ≤ t)
    (ht1 : t < nw) :
    Int.tdiv (end_o N nw t - start_o N nw t) 2 = balanced_share (couples_o N) nw t := by
  have h := range_length (couples_o N) nw t (couples_o_eq N hN).2 hnw ht0 ht1
  have hlen : end_o N nw t - start_o N nw t = 2 * balanced_share (couples_o N) nw t := by
    rw [← h]
    unfold end_o start_o
    split <;> ring
  rw [hlen, Int.mul_tdiv_cancel_left _ (by decide)]

/-- C6. Static balance: for `nw >= 1` workers and `N >= 0` elements, with `C = E = N/2` in the
even phase and `C = O = (N-1)/2` truncated toward zero in the odd phase, worker `t` of
`0..nw-1` is assigned `(end - start)/2 = floor(C/nw) + (1 if t < C mod nw else 0)` couples; the
counts of the workers sum to `C`, no two of them differ by more than 1, and a worker never has
fewer couples than a worker of higher index. -/
theorem static_balance (N nw : Int) (hN : 0 ≤ N) (hnw : 1 ≤ nw) :
    couples_e N = N / 2 ∧ couples_o N = (if N = 0 then 0 else (N - 1) / 2) ∧
    (∀ t : Int, 0 ≤ t → t < nw →
      Int.tdiv (end_e N nw t - start_e N nw t) 2 = balanced_share (couples_e N) nw t ∧
      Int.tdiv (end_o N nw t - start_o N nw t) 2 = balanced_share (couples_o N) nw t) ∧
    (∑ t ∈ Finset.range nw.toNat,
      Int.tdiv (end_e N nw ((t : Nat) : Int) - start_e N nw ((t : Nat) : Int)) 2) = couples_e N ∧
    (∑ t ∈ Finset.range nw.toNat,
      Int.tdiv (end_o N nw ((t : Nat) : Int) - start_o N nw ((t : Nat) : Int)) 2) = couples_o N ∧
    (∀ t t2 : Int, 0 ≤ t → t ≤ t2 → t2 < nw →
      Int.tdiv (end_e N nw t2 - start_e N nw t2) 2 ≤ Int.tdiv (end_e N nw t - start_e N nw t) 2 ∧
      Int.tdiv (end_e N nw t - start_e N nw t) 2
        ≤ Int.tdiv (end_e N nw t2 - start_e N nw t2) 2 + 1 ∧
      Int.tdiv (end_o N nw t2 - start_o N nw t2) 2 ≤ Int.tdiv (end_o N nw t - start_o N nw t) 2 ∧
      Int.tdiv (end_o N nw t - start_o N nw t) 2
        ≤ Int.tdiv (end_o N nw t2 - start_o N nw t2) 2 + 1) := by
  refine ⟨(couples_e_eq N hN).1, (couples_o_eq N hN).1, ?_, ?_, ?_, ?_⟩
  · intro t ht0 ht1
    exact ⟨couples_of_even_range N nw t hN hnw ht0 ht1,
      couples_of_odd_range N nw t hN hnw ht0 ht1⟩
  · have hsum := sum_balanced_share (couples_e N) nw hnw
    rw [← Finset.sum_congr rfl (fun (t : Nat) (ht : t ∈ Finset.range nw.toNat) =>
      couples_of_even_range N nw (t : Int) hN hnw (by omega)
        (by have := Finset.mem_range.mp ht; omega))] at hsum
    exact hsum
  · have hsum := sum_balanced_share (couples_o N) nw hnw
    rw [← Finset.sum_congr rfl (fun (t : Nat) (ht : t ∈ Finset.range nw.toNat) =>
      couples_of_odd_range N nw (t : Int) hN hnw (by omega)
        (by have := Finset.mem_range.mp ht; omega))] at hsum
    exact hsum
  · intro t t2 ht0 hle ht1
    rw [couples_of_even_range N nw t hN hnw ht0 (by omega),
      couples_of_even_range N nw t2 hN hnw (by omega) ht1,
      couples_of_odd_range N nw t hN hnw ht0 (by omega),
      couples_of_odd_range N nw t2 hN hnw (by omega) ht1]
    exact ⟨(balanced_share_mono _ nw t t2 hle).1, (balanced_share_mono _ nw t t2 hle).2,
      (balanced_share_mono _ nw t t2 hle).1, (balanced_share_mono _ nw t t2 hle).2⟩

/-- Witness of C6: 11 elements and 3 workers; the even phase has 5 couples, shared 2, 2, 1, and
the odd phase has 5 couples, shared 2, 2, 1. -/
theorem static_balance_witness :
    (Int.tdiv (end_e 11 3 0 - start_e 11 3 0) 2 = 2 ∧
      Int.tdiv (end_e 11 3 1 - start_e 11 3 1) 2 = 2 ∧
      Int.tdiv (end_e 11 3 2 - start_e 11 3 2) 2 = 1) ∧
    (Int.tdiv (end_e 11 3 2 - start_e 11 3 2) 2 = balanced_share (couples_e 11) 3 2 ∧
      Int.tdiv (end_o 11 3 2 - start_o 11 3 2) 2 = balanced_share (couples_o 11) 3 2) ∧
    (∑ t ∈ Finset.range (3 : Int).toNat,
      Int.tdiv (end_e 11 3 ((t : Nat) : Int) - start_e 11 3 ((t : Nat) : Int)) 2)
        = couples_e 11 :=
  have h := static_balance 11 3 (by decide) (by decide)
  ⟨by decide, h.2.2.1 2 (by decide) (by decide), h.2.2.2.1⟩

/-! ## Spin barrier -/

theorem arrivals_count (P : Int) (hP : 1 ≤ P) (hmax : P ≤ INT_MAX) : ∀ (k : Nat) (b : ActiveBarrier),
    b.reset_value = P → (k : Int) ≤ b.count → b.count ≤ P →
    (ActiveBarrier.arrivals k b).count = b.count - k ∧
    (ActiveBarrier.arrivals k b).reset_value = P
  | 0, b, hr, _, _ => by simp [ActiveBarrier.arrivals, hr]
  | k + 1, b, hr, hk, hc => by
    have hw : wrap32 (b.count - 1) = b.count - 1 :=
      wrap32_of_range _ (by push_cast at hk; omega) (by omega)
    have ih := arrivals_count P hP hmax k b.arrive (by simp [ActiveBarrier.arrive, hr])
      (by simp only [ActiveBarrier.arrive, hw]; push_cast at hk; omega)
      (by simp only [ActiveBarrier.arrive, hw]; omega)
    simp only [ActiveBarrier.arrive, hw] at ih
    simp only [ActiveBarrier.arrivals, ActiveBarrier.arrive, hw]
    refine ⟨?_, ih.2⟩
    rw [ih.1]
    push_cast
    ring

theorem after_count (P : Int) (hP : 1 ≤ P) (hmax : P ≤ INT_MAX) : ∀ hist : List BarrierEvent,
    within_parties P hist →
    ((ActiveBarrier.init P).after hist).count = P - pending hist ∧
    ((ActiveBarrier.init P).after hist).reset_value = P
  | [], _ => by simp [ActiveBarrier.after, ActiveBarrier.init, pending]
  | BarrierEvent.reset :: hist, h => by
    have ih := after_count P hP hmax hist h.2
    simp [ActiveBarrier.after, ActiveBarrier.step, ActiveBarrier.reset, pending, ih.2]
  | BarrierEvent.arrival :: hist, h => by
    have ih := after_count P hP hmax hist h.2
    have hp : ((pending hist + 1 : Nat) : Int) ≤ P := h.1
    have hw : wrap32 (P - (pending hist : Int) - 1) = P - (pending hist : Int) - 1 :=
      wrap32_of_range _ (by push_cast at hp; omega) (by omega)
    simp only [ActiveBarrier.after, ActiveBarrier.step, ActiveBarrier.arrive, pending, ih.1,
      ih.2, hw]
    refine ⟨?_, trivial⟩
    push_cast
    ring

/-- C8. Barrier safety on the counter: for an `ActiveBarrier` constructed or reset with party
count `P >= 1`, after `k <= P` arrivals the counter is `P - k`; so for `1 <= k < P` the release
condition of `wait_all` and `wait_all_nomod` (`count <= 0`) is false and that of `wait_reset`
(`count == P`) is false, and after exactly `P` arrivals the counter is 0: nobody is released
before the `P`-th arrival.  More generally, after any history of arrivals and resets with never
more than `P` arrivals since the last reset, the counter is `P` minus the number of arrivals
since the last reset; `wait_all` is released exactly when all `P` have arrived, and `wait_reset`
exactly when nobody has arrived since the last reset, so its participants are released only by
a subsequent `reset()`. -/
theorem barrier_safety (P : Int) (hP : 1 ≤ P) (hmax : P ≤ INT_MAX) :
    (∀ b0 : ActiveBarrier, b0.reset_value = P → b0.reset = ActiveBarrier.init P) ∧
    (∀ k : Nat, (k : Int) ≤ P →
      (ActiveBarrier.arrivals k (ActiveBarrier.init P)).count = P - k ∧
      ((k : Int) < P → (ActiveBarrier.arrivals k (ActiveBarrier.init P)).released_all = false) ∧
      (1 ≤ k → (ActiveBarrier.arrivals k (ActiveBarrier.init P)).released_reset = false) ∧
      ((k : Int) = P → (ActiveBarrier.arrivals k (ActiveBarrier.init P)).count = 0 ∧
        (ActiveBarrier.arrivals k (ActiveBarrier.init P)).released_all = true) ∧
      (ActiveBarrier.arrivals k (ActiveBarrier.init P)).reset.released_reset = true) ∧
    (∀ hist : List BarrierEvent, within_parties P hist →
      ((ActiveBarrier.init P).after hist).count = P - pending hist ∧
      (((ActiveBarrier.init P).after hist).released_all = true ↔ (pending hist : Int) = P) ∧
      (((ActiveBarrier.init P).after hist).released_reset = true ↔ pending hist = 0) ∧
      ((ActiveBarrier.init P).after (BarrierEvent.reset :: hist)).released_reset = true) := by
  refine ⟨?_, ?_, ?_⟩
  · intro b0 h0
    simp [ActiveBarrier.reset, ActiveBarrier.init, h0]
  · intro k hk
    obtain ⟨hc, hr⟩ := arrivals_count P hP hmax k (ActiveBarrier.init P) rfl
      (by simpa [ActiveBarrier.init] using hk) (by simp [ActiveBarrier.init])
    have hc2 : (ActiveBarrier.arrivals k (ActiveBarrier.init P)).count = P - k := by
      rw [hc]; rfl
    refine ⟨hc2, ?_, ?_, ?_, ?_⟩
    · intro hlt
      simp only [ActiveBarrier.released_all, hc2]
      simp
      omega
    · intro h1
      simp only [ActiveBarrier.released_reset, hc2, hr]
      simp
      omega
    · intro heq
      simp only [ActiveBarrier.released_all, hc2]
      simp
      omega
    · simp [ActiveBarrier.released_reset, ActiveBarrier.reset]
  · intro hist hw
    obtain ⟨hc, hr⟩ := after_count P hP hmax hist hw
    have hle : (pending hist : Int) ≤ P := by
      cases hist with
      | nil => simp [pending]; omega
      | cons ev rest => exact hw.1
    refine ⟨hc, ?_, ?_, ?_⟩
    · simp only [ActiveBarrier.released_all, hc]
      simp
      omega
    · simp only [ActiveBarrier.released_reset, hc, hr]
      simp
    · simp [ActiveBarrier.released_reset, ActiveBarrier.after, ActiveBarrier.step,
        ActiveBarrier.reset]

/-- Witness of C8: a barrier of 3 parties after 2 arrivals, and after 3. -/
theorem barrier_safety_witness :
    ((ActiveBarrier.arrivals 2 (ActiveBarrier.init 3)).count = 3 - (2 : Nat) ∧
      (((2 : Nat) : Int) < 3 → (ActiveBarrier.arrivals 2 (ActiveBarrier.init 3)).released_all = false) ∧
      (1 ≤ 2 → (ActiveBarrier.arrivals 2 (ActiveBarrier.init 3)).released_reset = false) ∧
      (((2 : Nat) : Int) = 3 → (ActiveBarrier.arrivals 2 (ActiveBarrier.init 3)).count = 0 ∧
        (ActiveBarrier.arrivals 2 (ActiveBarrier.init 3)).released_all = true) ∧
      (ActiveBarrier.arrivals 2 (ActiveBarrier.init 3)).reset.released_reset = true) ∧
    (ActiveBarrier.arrivals 3 (ActiveBarrier.init 3)).count = 0 ∧
    (ActiveBarrier.arrivals 3 (ActiveBarrier.init 3)).released_all = true :=
  ⟨(barrier_safety 3 (by decide) (by decide)).2.1 2 (by decide), by decide, by decide⟩

/-! ## Dynamic engine -/

/-- C3. Dynamic engine with an odd chunk size: on the vector `[1, 0]` with chunk size 1 every
claimed range holds a single index, no couple is ever compared, and the engine stops after its
first iteration with the vector `[1, 0]`, which is not ordered, whatever the fuel that lets it
return; with chunk size 3 on the reversed vector of 10 elements the couples `(2,3)`, `(5,6)`,
`(8,9)` are never compared and the engine stops on an unordered vector as well. -/
theorem dyn_sort_odd_chunk_unsorted :
    (∀ pf f : Nat, dyn_sort (pf + 3) (f + 1) 1 [1, 0] = some ([1, 0], 1)) ∧
    (∀ (pf f : Nat) (r : List Int × Nat), dyn_sort pf f 1 [1, 0] = some r → r = ([1, 0], 1)) ∧
    is_sorted [1, 0] = false ∧
    dyn_sort 5 4 3 (fill_reversed 10) = some ([7, 8, 9, 4, 5, 6, 1, 2, 3, 0], 3) ∧
    is_sorted [7, 8, 9, 4, 5, 6, 1, 2, 3, 0] = false := by
  refine ⟨fun pf f => rfl, ?_, by decide, by decide, by decide⟩
  intro pf f r h
  have hrun : ∀ p g : Nat, dyn_sort (p + 3) (g + 1) 1 [1, 0] = some ([1, 0], 1) :=
    fun p g => rfl
  match pf, f, h with
  | _, 0, h => exact Option.noConfusion h
  | 0, _ + 1, h => exact Option.noConfusion h
  | 1, _ + 1, h => exact Option.noConfusion h
  | 2, _ + 1, h => exact Option.noConfusion h
  | p + 3, g + 1, h =>
    rw [hrun p g] at h
    exact (Option.some.inj h).symm

/-! ## Sequential engine on short inputs -/

/-- On an ordered vector the loop of the sequential engine exits after its first iteration. -/
theorem seq_sort_of_sorted (A : List Int) (hs : List.Sorted (fun x y => x ≤ y) A) (fuel : Nat) :
    seq_sort (fuel + 1) A = some (A, 1) := by
  have hord := adjacent_of_sorted A hs
  have he := sort_couples_ordered A 0 _ (le_refl 0) (even_end_le A.length) hord
  have ho := sort_couples_ordered A 1 (odd_end A.length) (by omega) (odd_end_le A.length) hord
  unfold seq_sort
  rw [seq_loop_round _ _ fuel A A A 0 1 0 0 Nat.one_ne_zero he ho]
  exact seq_loop_exit _ _ fuel A 1

theorem sorted_of_length_le_one : ∀ A : List Int, A.length ≤ 1 →
    List.Sorted (fun x y => x ≤ y) A
  | [], _ => List.sorted_nil
  | [a], _ => List.sorted_singleton a
  | _ :: _ :: _, h => by simp at h

/-- C11 (amended). Concrete scenario B: for every input of length 0 or 1 the sequential engine
executes exactly one iteration (`iter = 1` at exit, the loop being entered with `swapped = 1`),
both phases of that iteration return zero swaps, and the output equals the input unchanged. -/
theorem seq_sort_short_input (A : List Int) (h : A.length ≤ 1) :
    (∀ fuel, seq_sort (fuel + 1) A = some (A, 1)) ∧ seq_sort 0 A = none ∧
    (∀ fuel r, seq_sort fuel A = some r → r = (A, 1)) ∧
    sort_couples A 0 (even_end A.length) = some (A, 0) ∧
    sort_couples A 1 (odd_end A.length) = some (A, 0) := by
  have hs := sorted_of_length_le_one A h
  have hord := adjacent_of_sorted A hs
  refine ⟨fun fuel => seq_sort_of_sorted A hs fuel, by simp [seq_sort, seq_loop], ?_,
    sort_couples_ordered A 0 _ (le_refl 0) (even_end_le A.length) hord,
    sort_couples_ordered A 1 (odd_end A.length) (by omega) (odd_end_le A.length) hord⟩
  intro fuel r hr
  exact seq_loop_unique _ _ A 0 1 r _ fuel 1 hr (seq_sort_of_sorted A hs 0)

/-- Witness of C11 (amended): the vector `[7]`. -/
theorem seq_sort_short_input_witness :
    (∀ fuel, seq_sort (fuel + 1) [7] = some ([7], 1)) ∧ seq_sort 0 [7] = none ∧
    (∀ fuel r, seq_sort fuel [7] = some r → r = ([7], 1)) ∧
    sort_couples [7] 0 (even_end ([7] : List Int).length) = some ([7], 0) ∧
    sort_couples [7] 1 (odd_end ([7] : List Int).length) = some ([7], 0) :=
  seq_sort_short_input [7] (by decide)

/-- Counterexample to C11 as stated: on the empty vector and on the vector `[7]` the sequential
engine exits with `iter = 1`, and no run exits with `iter = 0`. -/
theorem seq_sort_short_input_iterates :
    seq_sort 1 [] = some ([], 1) ∧ seq_sort 1 [7] = some ([7], 1) ∧
    (∀ fuel A3, seq_sort fuel [] ≠ some (A3, 0)) ∧
    (∀ fuel A3, seq_sort fuel [7] ≠ some (A3, 0)) := by
  refine ⟨by decide, by decide, ?_, ?_⟩
  · intro fuel A3 h
    have hu := seq_loop_unique _ _ [] 0 1 (A3, 0) ([], 1) fuel 1 h (by decide)
    have h01 : (0 : Nat) = 1 := congrArg Prod.snd hu
    exact absurd h01 (by decide)
  · intro fuel A3 h
    have hu := seq_loop_unique _ _ [7] 0 1 (A3, 0) ([7], 1) fuel 1 h (by decide)
    have h01 : (0 : Nat) = 1 := congrArg Prod.snd hu
    exact absurd h01 (by decide)

/-! ## Configuration of the dynamic engine -/

theorem sort_couples_empty_range (A : List Int) (start end_ : Int) (h : end_ - 1 ≤ start) :
    sort_couples A start end_ = some (A, 0) :=
  sort_couples_loop_done _ A start end_ 0 (by omega)

/-- A dispenser with chunk size 0 over a domain that is not empty answers every call with the
empty range `[0, 0)` and stays as it is. -/
theorem get_task_chunk_zero (S : Int) (hS : 0 < S) :
    (TaskManager.mk 0 0 S).get_task = (TaskManager.mk 0 0 S, some (0, 0)) := by
  have hw : wrap32 (0 + 0) = 0 := by decide
  have hns : ¬ (0 ≥ S) := by omega
  have hmin : min S 0 = 0 := min_eq_right (le_of_lt hS)
  simp only [TaskManager.get_task, hw, hns, if_false, hmin]

theorem claims_chunk_zero (S : Int) (hS : 0 < S) : ∀ m : Nat,
    (TaskManager.mk 0 0 S).claims m = List.replicate m (some (0, 0))
  | 0 => rfl
  | m + 1 => by
    simp only [TaskManager.claims, get_task_chunk_zero S hS, claims_chunk_zero S hS m,
      List.replicate_succ]

/-- With chunk size 0 over a domain that is not empty the claim loop of a phase does not return,
whatever the fuel. -/
theorem dyn_phase_chunk_zero (S : Int) (hS : 0 < S) : ∀ (fuel : Nat) (A : List Int) (k : Nat),
    dyn_phase fuel (TaskManager.mk 0 0 S) A k = none
  | 0, _, _ => rfl
  | fuel + 1, A, k => by
    have ih := dyn_phase_chunk_zero S hS fuel A (k + 0)
    simp only [dyn_phase, get_task_chunk_zero S hS,
      sort_couples_empty_range A 0 0 (by decide), ih]

/-- The default chunk size `N/nw` is 0 when there are fewer elements than workers. -/
theorem dyn_chunksize_few_elements (N nw chunksize : Int) (h0 : 0 ≤ N) (h1 : N < nw)
    (hc : chunksize ≤ 0) : dyn_chunksize N nw chunksize = 0 := by
  unfold dyn_chunksize
  rw [if_pos hc, Int.tdiv_eq_ediv h0 (by omega)]
  exact Int.ediv_eq_zero_of_lt h0 h1

/-- C12. Dynamic engine configuration, 1 element, 2 workers and the chunksize argument 0: the
chunk size with which the `TaskManager` is built is `1/2 = 0`; every `get_task` call then
answers with the empty range `[0, 0)` and never reports exhausted, so neither the claim loop
of the even phase nor the engine returns, whatever the fuel. -/
theorem dyn_chunksize_zero_loops :
    dyn_chunksize 1 2 0 = 0 ∧
    (∀ m : Nat, claims_after (dyn_chunksize 1 2 0) 1 0 m = List.replicate m (some (0, 0))) ∧
    (∀ (fuel : Nat) (x : Int),
      dyn_phase fuel ((TaskManager.mk 0 (dyn_chunksize 1 2 0) 1).set_index 0) [x] 0 = none) ∧
    (∀ (pf fuel : Nat) (x : Int), dyn_sort pf fuel (dyn_chunksize 1 2 0) [x] = none) := by
  have hc : dyn_chunksize 1 2 0 = 0 := by decide
  refine ⟨hc, ?_, ?_, ?_⟩
  · intro m
    rw [hc]
    exact claims_chunk_zero 1 (by decide) m
  · intro fuel x
    rw [hc]
    exact dyn_phase_chunk_zero 1 (by decide) fuel [x] 0
  · intro pf fuel x
    rw [hc]
    cases fuel with
    | zero => rfl
    | succ f =>
      have hp : dyn_phase pf ((TaskManager.mk 0 0 (([x] : List Int).length : Int)).set_index 0)
          [x] 0 = none := dyn_phase_chunk_zero 1 (by decide) pf [x] 0
      simp only [dyn_sort, dyn_loop, hp]

/-! ## Iteration-bounded generator -/

/-- C13. Iteration-bounded generator: on a vector of 1 element with `niter = 2` the generator
computes `rand() % 0`, whatever `rand()` returns, and leaves no vector; on a vector of 3
elements with `niter = 2` and the values 0, 1, 0 of `rand()` it leaves `[2, 1, 0]`, a
permutation of `0..2` on which the sequential engine exits with `iter = 3`, above `niter`. -/
theorem fill_for_fixed_iterations_exceeds :
    (∀ rand : Nat → Int, fill_for_fixed_iterations rand 1 2 = none) ∧
    fill_for_fixed_iterations (fun k => [0, 1, 0].getD k 0) 3 2 = some [2, 1, 0] ∧
    seq_sort 3 [2, 1, 0] = some ([0, 1, 2], 3) ∧
    (∀ fuel r, seq_sort fuel [2, 1, 0] = some r → r = ([0, 1, 2], 3)) := by
  refine ⟨fun rand => rfl, by decide, by decide, ?_⟩
  intro fuel r h
  exact seq_loop_unique _ _ _ 0 1 r _ fuel 3 h (by decide)
/-! ## Static ranges tile the phase domain -/

theorem tile_zero (C nw : Int) (hnw : 1 ≤ nw) : tile C nw 0 = 0 := by
  unfold tile
  have hr0 : 0 ≤ C % nw := Int.emod_nonneg C (by omega)
  rw [min_eq_right hr0]
  ring

theorem tile_last (C nw : Int) (hnw : 1 ≤ nw) : tile C nw nw = 2 * C := by
  unfold tile
  have hdm : nw * (C / nw) + C % nw = C := Int.ediv_add_emod C nw
  have hr1 : C % nw < nw := Int.emod_lt_of_pos C (by omega)
  rw [min_eq_left (le_of_lt hr1)]
  omega

theorem tile_succ (C nw t : Int) :
    tile C nw (t + 1) = tile C nw t + 2 * (C / nw + (if t < C % nw then 1 else 0)) := by
  unfold tile
  have hexp : (t + 1) * (C / nw) = t * (C / nw) + C / nw := by ring
  rw [hexp]
  generalize t * (C / nw) = a
  generalize C / nw = q
  generalize C % nw = r
  by_cases h : t < r
  · rw [if_pos h, min_eq_right (by omega), min_eq_right (by omega)]
    omega
  · rw [if_neg h, min_eq_left (by omega), min_eq_left (by omega)]
    omega

theorem tile_le_succ (C nw t : Int) (hC : 0 ≤ C) (hnw : 1 ≤ nw) :
    tile C nw t ≤ tile C nw (t + 1) := by
  rw [tile_succ]
  have hq : 0 ≤ C / nw := Int.ediv_nonneg hC (by omega)
  split <;> omega

theorem tile_mono (C nw : Int) (hC : 0 ≤ C) (hnw : 1 ≤ nw) (t : Nat) : ∀ d : Nat,
    tile C nw (t : Int) ≤ tile C nw ((t + d : Nat) : Int)
  | 0 => le_refl _
  | d + 1 => by
    have ih := tile_mono C nw hC hnw t d
    have hs := tile_le_succ C nw ((t + d : Nat) : Int) hC hnw
    have hcast : ((t + (d + 1) : Nat) : Int) = ((t + d : Nat) : Int) + 1 := by push_cast; ring
    rw [hcast]
    exact le_trans ih hs

theorem tile_mono_le (C nw : Int) (hC : 0 ≤ C) (hnw : 1 ≤ nw) (t u : Nat) (h : t ≤ u) :
    tile C nw (t : Int) ≤ tile C nw (u : Int) := by
  obtain ⟨d, rfl⟩ := Nat.exists_eq_add_of_le h
  exact tile_mono C nw hC hnw t d

theorem tile_even (C nw t : Int) : tile C nw t % 2 = 0 := by
  unfold tile
  omega

theorem range_offset_eq_tile (C nw t : Int) (hC : 0 ≤ C) (hnw : 1 ≤ nw) :
    range_offset C nw t = tile C nw t := by
  unfold range_offset
  by_cases h0 : t = 0
  · subst h0
    rw [if_pos rfl, tile_zero C nw hnw]
  · rw [if_neg h0, Int.tdiv_eq_ediv hC (by omega), Int.tmod_eq_emod hC (by omega)]
    rfl

/-- The range end of worker `t`, as the source computes it, is the next cut point. -/
theorem range_end_eq_tile (C nw t : Int) (hC : 0 ≤ C) (hnw : 1 ≤ nw) :
    (if t = nw - 1 then 2 * C
      else range_offset C nw t + 2 * (Int.tdiv C nw + (if t < Int.tmod C nw then 1 else 0)))
      = tile C nw (t + 1) := by
  by_cases hlast : t = nw - 1
  · rw [if_pos hlast]
    have : t + 1 = nw := by omega
    rw [this, tile_last C nw hnw]
  · rw [if_neg hlast, range_offset_eq_tile C nw t hC hnw, tile_succ,
      Int.tdiv_eq_ediv hC (by omega), Int.tmod_eq_emod hC (by omega)]

theorem start_e_eq_tile (N nw t : Int) (hN : 0 ≤ N) (hnw : 1 ≤ nw) :
    start_e N nw t = 0 + tile (couples_e N) nw t := by
  unfold start_e
  rw [range_offset_eq_tile _ nw t (couples_e_eq N hN).2 hnw]
  ring

theorem end_e_eq_tile (N nw t : Int) (hN : 0 ≤ N) (hnw : 1 ≤ nw) :
    end_e N nw t = 0 + tile (couples_e N) nw (t + 1) := by
  have h := range_end_eq_tile (couples_e N) nw t (couples_e_eq N hN).2 hnw
  rw [Int.zero_add, ← h]
  rfl

theorem start_o_eq_tile (N nw t : Int) (hN : 0 ≤ N) (hnw : 1 ≤ nw) :
    start_o N nw t = 1 + tile (couples_o N) nw t := by
  unfold start_o
  rw [range_offset_eq_tile _ nw t (couples_o_eq N hN).2 hnw]

theorem end_o_eq_tile (N nw t : Int) (hN : 0 ≤ N) (hnw : 1 ≤ nw) :
    end_o N nw t = 1 + tile (couples_o N) nw (t + 1) := by
  have h := range_end_eq_tile (couples_o N) nw t (couples_o_eq N hN).2 hnw
  rw [← h]
  unfold end_o start_o
  split <;> ring

/-- Every offset below the last cut point lies between two consecutive cut points. -/
theorem tile_cover (f : Nat → Int) (x : Int) : ∀ n : Nat, f 0 ≤ x → x < f n →
    ∃ t : Nat, t < n ∧ f t ≤ x ∧ x < f (t + 1)
  | 0, h0, h1 => by omega
  | n + 1, h0, h1 => by
    by_cases h : f n ≤ x
    · exact ⟨n, by omega, h, h1⟩
    · obtain ⟨t, ht, h2, h3⟩ := tile_cover f x n h0 (by omega)
      exact ⟨t, by omega, h2, h3⟩
/-! ## A range of a worker inside the phase -/

theorem sort_couples_spec (A : List Int) (s : Nat) (end_ : Int) (hend : end_ ≤ A.length) :
    ∃ A1, sort_couples A (s : Int) end_ = some (A1, swaps_spec A (s : Int) end_) ∧
      A1.length = A.length ∧
      inversions A1 + swaps_spec A (s : Int) end_ = inversions A ∧
      ∀ j, A1[j]? = elem_spec A (s : Int) end_ j := by
  obtain ⟨A1, hrun, hel⟩ :=
    sort_couples_loop_spec (end_ - (s : Int)).toNat A s end_ 0 hend (le_refl _)
  rw [Nat.zero_add] at hrun
  obtain ⟨A1t, k, hrunt, hlen, _, hinv⟩ := sort_couples_total A s end_ (by omega) hend
  have hsame : (A1t, k) = (A1, swaps_spec A (s : Int) end_) := by
    unfold sort_couples at hrunt
    rw [hrun] at hrunt
    exact (Option.some.inj hrunt).symm
  have h1 : A1t = A1 := congrArg Prod.fst hsame
  have h2 : k = swaps_spec A (s : Int) end_ := congrArg Prod.snd hsame
  rw [h1] at hlen hinv
  rw [h2] at hinv
  exact ⟨A1, hrun, hlen, hinv, hel⟩

/-- Inside a range that starts and ends at cut points of the phase, the couples visited by the
range are the couples visited by the phase. -/
theorem visits_sub (S s : Nat) (E e : Int) (hSs : S ≤ s) (heE : e ≤ E)
    (hps : ((s : Int) - S) % 2 = 0) (hpe : (e - S) % 2 = 0) (i : Nat)
    (h0 : (s : Int) ≤ (i : Int) + 1) (h1 : (i : Int) < e) :
    visits (s : Int) e i = visits (S : Int) E i := by
  simp only [visits, decide_eq_decide]
  omega

theorem exchanged_sub (A : List Int) (S s : Nat) (E e : Int) (hSs : S ≤ s) (heE : e ≤ E)
    (hps : ((s : Int) - S) % 2 = 0) (hpe : (e - S) % 2 = 0) (i : Nat)
    (h0 : (s : Int) ≤ (i : Int) + 1) (h1 : (i : Int) < e) :
    exchanged A (s : Int) e i = exchanged A (S : Int) E i := by
  unfold exchanged
  rw [visits_sub S s E e hSs heE hps hpe i h0 h1]

theorem elem_spec_sub (A : List Int) (S s : Nat) (E e : Int) (hSs : S ≤ s) (heE : e ≤ E)
    (hps : ((s : Int) - S) % 2 = 0) (hpe : (e - S) % 2 = 0) (j : Nat)
    (h0 : (s : Int) ≤ (j : Int)) (h1 : (j : Int) < e) :
    elem_spec A (s : Int) e j = elem_spec A (S : Int) E j := by
  unfold elem_spec
  rw [exchanged_sub A S s E e hSs heE hps hpe j (by omega) h1]
  by_cases hj : 1 ≤ j
  · rw [exchanged_sub A S s E e hSs heE hps hpe (j - 1) (by omega) (by omega)]
  · have hn1 : ¬ (1 ≤ j ∧ exchanged A (s : Int) e (j - 1) = true) := fun hc => hj hc.1
    have hn2 : ¬ (1 ≤ j ∧ exchanged A (S : Int) E (j - 1) = true) := fun hc => hj hc.1
    rw [if_neg hn1, if_neg hn2]

/-- The call of one worker on a vector that still has the elements of the input `A` inside the
worker's range: inside the range it leaves what the whole phase leaves, outside nothing changes,
and each swap it counts removes one inversion. -/
theorem sub_range_step (A B : List Int) (S : Nat) (s E e : Int) (hE : E ≤ A.length)
    (hSs : (S : Int) ≤ s) (heE : e ≤ E) (hps : (s - S) % 2 = 0) (hpe : (e - S) % 2 = 0)
    (hlen : B.length = A.length)
    (hAB : ∀ j : Nat, s ≤ (j : Int) → (j : Int) < e → B[j]? = A[j]?) :
    ∃ B1 c, sort_couples B s e = some (B1, c) ∧ B1.length = A.length ∧
      inversions B1 + c = inversions B ∧
      (∀ j : Nat, s ≤ (j : Int) → (j : Int) < e → B1[j]? = elem_spec A (S : Int) E j) ∧
      (∀ j : Nat, ((j : Int) < s ∨ e ≤ (j : Int)) → B1[j]? = B[j]?) := by
  obtain ⟨n, rfl⟩ := Int.eq_ofNat_of_zero_le (le_trans (Int.ofNat_nonneg S) hSs)
  obtain ⟨B1, hrun, hl, hinv, hel⟩ := sort_couples_spec B n e (by rw [hlen]; omega)
  refine ⟨B1, swaps_spec B (n : Int) e, hrun, hl.trans hlen, hinv, ?_, ?_⟩
  · intro j h0 h1
    rw [hel, elem_spec_agree A B n e hAB j h0 h1,
      elem_spec_sub A S n E e (by omega) heE hps hpe j h0 h1]
  · intro j hj
    rw [hel, elem_spec_outside B n e j hj]

/-! ## The ranges of the workers -/

theorem owns_within (b : Nat) (C nw : Int) (hC : 0 ≤ C) (hnw : 1 ≤ nw) (t : Nat)
    (ht : (t : Int) < nw) :
    (b : Int) ≤ (phase_range b C nw t).1 ∧ (phase_range b C nw t).2 ≤ (b : Int) + 2 * C := by
  obtain ⟨n, rfl⟩ := Int.eq_ofNat_of_zero_le (by omega : 0 ≤ nw)
  have h0 := tile_mono_le C n hC hnw 0 t (Nat.zero_le t)
  have h1 := tile_mono_le C n hC hnw (t + 1) n (by omega)
  rw [tile_last C n hnw] at h1
  have hz : tile C (n : Int) ((0 : Nat) : Int) = 0 := tile_zero C n hnw
  rw [hz] at h0
  have hcast : ((t + 1 : Nat) : Int) = (t : Int) + 1 := by push_cast; ring
  rw [hcast] at h1
  simp only [phase_range]
  omega

theorem owns_parity (b : Nat) (C nw : Int) (t : Nat) :
    ((phase_range b C nw t).1 - (b : Int)) % 2 = 0 ∧
    ((phase_range b C nw t).2 - (b : Int)) % 2 = 0 := by
  have h0 := tile_even C nw (t : Int)
  have h1 := tile_even C nw ((t : Int) + 1)
  simp only [phase_range]
  omega

theorem owns_disjoint (b : Nat) (C nw : Int) (hC : 0 ≤ C) (hnw : 1 ≤ nw) (t u j : Nat)
    (ht : owns b C nw t j) (hu : owns b C nw u j) : t = u := by
  simp only [owns, phase_range] at ht hu
  by_contra hne
  rcases Nat.lt_or_gt_of_ne hne with hlt | hgt
  · have h := tile_mono_le C nw hC hnw (t + 1) u (by omega)
    have hcast : ((t + 1 : Nat) : Int) = (t : Int) + 1 := by push_cast; ring
    rw [hcast] at h
    omega
  · have h := tile_mono_le C nw hC hnw (u + 1) t (by omega)
    have hcast : ((u + 1 : Nat) : Int) = (u : Int) + 1 := by push_cast; ring
    rw [hcast] at h
    omega

theorem owns_cover (b : Nat) (C nw : Int) (hnw : 1 ≤ nw) (j : Nat) (h0 : (b : Int) ≤ (j : Int))
    (h1 : (j : Int) < (b : Int) + 2 * C) : ∃ t : Nat, (t : Int) < nw ∧ owns b C nw t j := by
  obtain ⟨n, rfl⟩ := Int.eq_ofNat_of_zero_le (by omega : 0 ≤ nw)
  have hz : tile C (n : Int) ((0 : Nat) : Int) = 0 := tile_zero C n hnw
  have hl : tile C (n : Int) (n : Int) = 2 * C := tile_last C n hnw
  obtain ⟨t, ht, h2, h3⟩ := tile_cover (fun t => (b : Int) + tile C (n : Int) (t : Int)) j n
    (by simp only [hz]; omega) (by simp only [hl]; omega)
  refine ⟨t, by omega, ?_⟩
  simp only [owns, phase_range]
  have hcast : ((t + 1 : Nat) : Int) = (t : Int) + 1 := by push_cast; ring
  rw [hcast] at h3
  exact ⟨h2, h3⟩
/-! ## A phase of the static engine, the workers taken in any order -/

theorem apply_ranges_cons (p : Int × Int) (rest : List (Int × Int)) (A A1 : List Int)
    (k n : Nat) (h : sort_couples A p.1 p.2 = some (A1, n)) :
    apply_ranges (p :: rest) A k = apply_ranges rest A1 (k + n) := by
  obtain ⟨s, e⟩ := p
  simp only [apply_ranges]
  rw [h]

/-- The invariant of a phase: the workers already served have left, inside their ranges, what
the whole phase leaves; elsewhere the vector still is the input; and the swaps counted so far
are the inversions removed so far.  Serving further workers keeps it. -/
theorem apply_ranges_inv (A : List Int) (b : Nat) (C nw : Int) (hC : 0 ≤ C) (hnw : 1 ≤ nw)
    (hE : (b : Int) + 2 * C ≤ A.length) :
    ∀ (ts done : List Nat) (B : List Int) (k : Nat),
    B.length = A.length →
    (∀ j : Nat, (∃ t, t ∈ done ∧ owns b C nw t j) →
      B[j]? = elem_spec A (b : Int) ((b : Int) + 2 * C) j) →
    (∀ j : Nat, (¬ ∃ t, t ∈ done ∧ owns b C nw t j) → B[j]? = A[j]?) →
    inversions B + k = inversions A →
    (∀ t ∈ ts, t ∉ done ∧ (t : Int) < nw) → ts.Nodup →
    ∃ B2 k2, apply_ranges (ts.map (phase_range b C nw)) B k = some (B2, k2) ∧
      B2.length = A.length ∧
      (∀ j : Nat, (∃ t, (t ∈ ts ∨ t ∈ done) ∧ owns b C nw t j) →
        B2[j]? = elem_spec A (b : Int) ((b : Int) + 2 * C) j) ∧
      (∀ j : Nat, (¬ ∃ t, (t ∈ ts ∨ t ∈ done) ∧ owns b C nw t j) → B2[j]? = A[j]?) ∧
      inversions B2 + k2 = inversions A
  | [], done, B, k, hlen, hin, hout, hinv, _, _ => by
    refine ⟨B, k, rfl, hlen, ?_, ?_, hinv⟩
    · rintro j ⟨t, ht | ht, ho⟩
      · simp at ht
      · exact hin j ⟨t, ht, ho⟩
    · intro j hj
      exact hout j (fun ⟨t, ht, ho⟩ => hj ⟨t, Or.inr ht, ho⟩)
  | t :: rest, done, B, k, hlen, hin, hout, hinv, hts, hnd => by
    obtain ⟨htd, htn⟩ := hts t (List.mem_cons_self t rest)
    obtain ⟨hw0, hw1⟩ := owns_within b C nw hC hnw t htn
    obtain ⟨hp0, hp1⟩ := owns_parity b C nw t
    have hAB : ∀ j : Nat, (phase_range b C nw t).1 ≤ (j : Int) →
        (j : Int) < (phase_range b C nw t).2 → B[j]? = A[j]? := by
      intro j h0 h1
      apply hout j
      rintro ⟨u, hu, ho⟩
      have : t = u := owns_disjoint b C nw hC hnw t u j ⟨h0, h1⟩ ho
      exact htd (this ▸ hu)
    obtain ⟨B1, c, hrun, hl1, hinv1, hin1, hout1⟩ :=
      sub_range_step A B b (phase_range b C nw t).1 ((b : Int) + 2 * C)
        (phase_range b C nw t).2 hE hw0 hw1 hp0 hp1 hlen hAB
    have hnd2 := List.nodup_cons.mp hnd
    obtain ⟨B2, k2, hrun2, hl2, hin2, hout2, hinv2⟩ :=
      apply_ranges_inv A b C nw hC hnw hE rest (t :: done) B1 (k + c) hl1
        (by
          rintro j ⟨u, hu, ho⟩
          by_cases hut : u = t
          · subst hut
            exact hin1 j ho.1 ho.2
          · have hud : u ∈ done := by
              rcases List.mem_cons.mp hu with h | h
              · exact absurd h hut
              · exact h
            have hnot : (j : Int) < (phase_range b C nw t).1 ∨
                (phase_range b C nw t).2 ≤ (j : Int) := by
              by_contra hcon
              have ht : owns b C nw t j := ⟨by omega, by omega⟩
              exact hut (owns_disjoint b C nw hC hnw t u j ht ho).symm
            rw [hout1 j hnot]
            exact hin j ⟨u, hud, ho⟩)
        (by
          intro j hj
          have hnot : (j : Int) < (phase_range b C nw t).1 ∨
              (phase_range b C nw t).2 ≤ (j : Int) := by
            by_contra hcon
            exact hj ⟨t, List.mem_cons_self t done, ⟨by omega, by omega⟩⟩
          rw [hout1 j hnot]
          exact hout j (fun ⟨u, hu, ho⟩ => hj ⟨u, List.mem_cons_of_mem t hu, ho⟩))
        (by omega)
        (by
          intro u hu
          obtain ⟨hud, hun⟩ := hts u (List.mem_cons_of_mem t hu)
          refine ⟨fun hc => ?_, hun⟩
          rcases List.mem_cons.mp hc with h | h
          · exact hnd2.1 (h ▸ hu)
          · exact hud h)
        hnd2.2
    refine ⟨B2, k2, ?_, hl2, ?_, ?_, hinv2⟩
    · rw [List.map_cons, apply_ranges_cons _ _ B B1 k c hrun]
      exact hrun2
    · rintro j ⟨u, hu, ho⟩
      apply hin2 j
      rcases hu with hu | hu
      · rcases List.mem_cons.mp hu with h | h
        · exact ⟨u, Or.inr (h ▸ List.mem_cons_self t done), ho⟩
        · exact ⟨u, Or.inl h, ho⟩
      · exact ⟨u, Or.inr (List.mem_cons_of_mem t hu), ho⟩
    · intro j hj
      apply hout2 j
      rintro ⟨u, hu, ho⟩
      apply hj
      rcases hu with hu | hu
      · exact ⟨u, Or.inl (List.mem_cons_of_mem t hu), ho⟩
      · rcases List.mem_cons.mp hu with h | h
        · exact ⟨u, Or.inl (h ▸ List.mem_cons_self t rest), ho⟩
        · exact ⟨u, Or.inr h, ho⟩

/-- A phase of the static engine, the workers served one after the other in any order, leaves
the vector and the total swap count of the one call of the sequential engine over the whole
phase. -/
theorem phase_refines (A : List Int) (b : Nat) (C nw : Int) (hC : 0 ≤ C) (hnw : 1 ≤ nw)
    (hE : (b : Int) + 2 * C ≤ A.length) (order : List Nat)
    (horder : order.Perm (List.range nw.toNat)) :
    apply_ranges (order.map (phase_range b C nw)) A 0
      = sort_couples A (b : Int) ((b : Int) + 2 * C) := by
  obtain ⟨R, hR, _, hRinv, hRel⟩ := sort_couples_spec A b ((b : Int) + 2 * C) hE
  have hmem : ∀ t, t ∈ order ↔ (t : Int) < nw := by
    intro t
    rw [horder.mem_iff, List.mem_range]
    omega
  obtain ⟨B2, k2, hrun, hl2, hin2, hout2, hinv2⟩ :=
    apply_ranges_inv A b C nw hC hnw hE order [] A 0 rfl
      (by rintro j ⟨t, ht, _⟩; simp at ht) (fun _ _ => rfl) rfl
      (fun t ht => ⟨by simp, (hmem t).mp ht⟩)
      (horder.nodup_iff.mpr (List.nodup_range _))
  have hB : B2 = R := by
    apply List.ext_getElem?
    intro j
    rw [hRel j]
    by_cases hj : (b : Int) ≤ (j : Int) ∧ (j : Int) < (b : Int) + 2 * C
    · obtain ⟨t, ht, ho⟩ := owns_cover b C nw hnw j hj.1 hj.2
      exact hin2 j ⟨t, Or.inl ((hmem t).mpr ht), ho⟩
    · rw [elem_spec_outside A b _ j (by omega)]
      apply hout2 j
      rintro ⟨t, ht | ht, ho⟩
      · obtain ⟨hw0, hw1⟩ := owns_within b C nw hC hnw t ((hmem t).mp ht)
        have h0 := ho.1
        have h1 := ho.2
        omega
      · simp at ht
  rw [hrun, hR, hB]
  rw [hB] at hinv2
  have hk : k2 = swaps_spec A (b : Int) ((b : Int) + 2 * C) := by omega
  rw [hk]
theorem apply_ranges_empty (A : List Int) : ∀ (l : List (Int × Int)) (k : Nat),
    (∀ p ∈ l, p.2 - 1 ≤ p.1) → apply_ranges l A k = some (A, k)
  | [], _, _ => rfl
  | p :: rest, k, h => by
    have hp := sort_couples_empty_range A p.1 p.2 (h p (List.mem_cons_self p rest))
    rw [apply_ranges_cons p rest A A k 0 hp]
    exact apply_ranges_empty A rest (k + 0) (fun q hq => h q (List.mem_cons_of_mem p hq))

theorem even_ranges_eq (N nw : Int) (hN : 0 ≤ N) (hnw : 1 ≤ nw) (t : Nat) :
    (start_e N nw (t : Int), end_e N nw (t : Int)) = phase_range 0 (couples_e N) nw t := by
  rw [start_e_eq_tile N nw t hN hnw, end_e_eq_tile N nw t hN hnw]
  simp [phase_range]

theorem odd_ranges_eq (N nw : Int) (hN : 0 ≤ N) (hnw : 1 ≤ nw) (t : Nat) :
    (start_o N nw (t : Int), end_o N nw (t : Int)) = phase_range 1 (couples_o N) nw t := by
  rw [start_o_eq_tile N nw t hN hnw, end_o_eq_tile N nw t hN hnw]
  simp [phase_range]

theorem even_end_eq (N : Nat) : even_end N = ((0 : Nat) : Int) + 2 * couples_e N := by
  rw [(couples_e_eq N (by omega)).1]
  unfold even_end
  split <;> omega

theorem odd_end_eq (N : Nat) (hN : 1 ≤ N) : odd_end N = ((1 : Nat) : Int) + 2 * couples_o N := by
  rw [(couples_o_eq N (by omega)).1, if_neg (by omega)]
  unfold odd_end
  split <;> omega

/-- C14. Static engine refines the sequential phases: for a vector `A` of `N` elements and
`nw >= 1` workers the static ranges tile the phase domain (`start_e(0) = 0`,
`end_e(t) = start_e(t+1)`, `end_e(nw-1) = 2*(N/2)`; `start_o(0) = 1`,
`end_o(t) = start_o(t+1)`, `end_o(nw-1) = 1 + 2*((N-1)/2)`), and the calls
`sort_couples(A, start_e(t), end_e(t))` of all workers `t`, made one after the other in any
order, leave the same vector and the same total swap count as the sequential
`sort_couples(A, 0, even_end)`; likewise the odd ranges and `sort_couples(A, 1, odd_end)`. -/
theorem static_refines_sequential (A : List Int) (nw : Int) (hnw : 1 ≤ nw) (order : List Nat)
    (horder : order.Perm (List.range nw.toNat)) :
    (start_e A.length nw 0 = 0 ∧
      (∀ t : Int, 0 ≤ t → t < nw - 1 → end_e A.length nw t = start_e A.length nw (t + 1)) ∧
      end_e A.length nw (nw - 1) = 2 * ((A.length : Int) / 2) ∧
      start_o A.length nw 0 = 1 ∧
      (∀ t : Int, 0 ≤ t → t < nw - 1 → end_o A.length nw t = start_o A.length nw (t + 1)) ∧
      end_o A.length nw (nw - 1) = 1 + 2 * Int.tdiv ((A.length : Int) - 1) 2) ∧
    static_even nw order A = sort_couples A 0 (even_end A.length) ∧
    static_odd nw order A = sort_couples A 1 (odd_end A.length) ∧
    (∃ A1 k, sort_couples A 0 (even_end A.length) = some (A1, k)) ∧
    (∃ A1 k, sort_couples A 1 (odd_end A.length) = some (A1, k)) := by
  have hN : (0 : Int) ≤ (A.length : Int) := by omega
  have hmem : ∀ t, t ∈ order → (t : Int) < nw := by
    intro t ht
    have := List.mem_range.mp (horder.mem_iff.mp ht)
    omega
  refine ⟨⟨?_, ?_, ?_, ?_, ?_, ?_⟩, ?_, ?_, ?_, ?_⟩
  · simp [start_e, range_offset]
  · intro t _ _
    rw [end_e_eq_tile _ nw t hN hnw, start_e_eq_tile _ nw (t + 1) hN hnw]
  · have h : end_e A.length nw (nw - 1) = 2 * couples_e A.length := by simp [end_e]
    rw [h, (couples_e_eq _ hN).1]
  · simp [start_o, range_offset]
  · intro t _ _
    rw [end_o_eq_tile _ nw t hN hnw, start_o_eq_tile _ nw (t + 1) hN hnw]
  · simp [end_o, couples_o]
  · unfold static_even
    rw [List.map_congr_left (fun t _ => even_ranges_eq A.length nw hN hnw t),
      phase_refines A 0 (couples_e A.length) nw (couples_e_eq _ hN).2 hnw
        (by rw [← even_end_eq]; exact even_end_le A.length) order horder,
      ← even_end_eq]
    rfl
  · unfold static_odd
    rw [List.map_congr_left (fun t _ => odd_ranges_eq A.length nw hN hnw t)]
    by_cases h0 : A.length = 0
    · have hC : couples_o (A.length : Int) = 0 := by rw [h0]; decide
      rw [sort_couples_empty_range A 1 (odd_end A.length)
        (by have := odd_end_le A.length; omega)]
      apply apply_ranges_empty
      intro p hp
      obtain ⟨t, ht, rfl⟩ := List.mem_map.mp hp
      obtain ⟨hw0, hw1⟩ := owns_within 1 (couples_o A.length) nw (by omega) hnw t (hmem t ht)
      rw [hC] at hw0 hw1
      rw [hC]
      omega
    · rw [phase_refines A 1 (couples_o A.length) nw (couples_o_eq _ hN).2 hnw
          (by rw [← odd_end_eq A.length (by omega)]; exact odd_end_le A.length) order horder,
        ← odd_end_eq A.length (by omega)]
      rfl
  · obtain ⟨A1, k, h, _⟩ :=
      sort_couples_total A 0 (even_end A.length) (le_refl 0) (even_end_le A.length)
    exact ⟨A1, k, h⟩
  · obtain ⟨A1, k, h, _⟩ :=
      sort_couples_total A 1 (odd_end A.length) (by omega) (odd_end_le A.length)
    exact ⟨A1, k, h⟩

/-- Witness of C14: 7 elements and 3 workers served in the order 2, 0, 1. -/
theorem static_refines_sequential_witness :
    static_even 3 [2, 0, 1] [6, 5, 4, 3, 2, 1, 0] = some ([5, 6, 3, 4, 1, 2, 0], 3) ∧
    static_even 3 [2, 0, 1] [6, 5, 4, 3, 2, 1, 0]
      = sort_couples [6, 5, 4, 3, 2, 1, 0] 0 (even_end ([6, 5, 4, 3, 2, 1, 0] : List Int).length) ∧
    static_odd 3 [2, 0, 1] [6, 5, 4, 3, 2, 1, 0]
      = sort_couples [6, 5, 4, 3, 2, 1, 0] 1 (odd_end ([6, 5, 4, 3, 2, 1, 0] : List Int).length) :=
  have h := static_refines_sequential [6, 5, 4, 3, 2, 1, 0] 3 (by decide) [2, 0, 1] (by decide)
  ⟨by decide, h.2.1, h.2.2.1⟩

end OddEvenSort
